import Mathlib

/-!
Verification development for the PDF-to-Text extraction service.

The Go sources are shallowly embedded: strings are `List Char`, machine
integers are `Int`/`Nat` (with explicit two's-complement wrapping where
an overflow matters), `float64` values are the exact rationals they
represent, with IEEE-754 round-to-nearest-even modelled explicitly, and
effectful calls (page counting, per-page text extraction, the remote OCR
provider, the quality scorer) are parameters of the embedding, so that
theorems quantify over every possible outcome of those calls.
-/

namespace Fileproc

/-- Strings of the Go program, embedded as lists of characters. -/
abbrev Str := List Char

/-- Decidable equality for `Except`, used to evaluate the embeddings on
concrete scenarios. -/
instance {e a : Type} [DecidableEq e] [DecidableEq a] : DecidableEq (Except e a) := fun
  | .ok x, .ok y =>
    if h : x = y then isTrue (by rw [h])
    else isFalse (by intro hh; cases hh; exact h rfl)
  | .ok _, .error _ => isFalse (by intro hh; cases hh)
  | .error _, .ok _ => isFalse (by intro hh; cases hh)
  | .error x, .error y =>
    if h : x = y then isTrue (by rw [h])
    else isFalse (by intro hh; cases hh; exact h rfl)

/-- Embedding of Go `unicode.IsSpace`: the Unicode White_Space code
points ('\t', '\n', '\v', '\f', '\r', ' ', U+0085, U+00A0, U+1680,
U+2000-U+200A, U+2028, U+2029, U+202F, U+205F, U+3000). -/
def goIsSpace (c : Char) : Bool :=
  c.toNat = 0x09 || c.toNat = 0x0A || c.toNat = 0x0B || c.toNat = 0x0C ||
  c.toNat = 0x0D || c.toNat = 0x20 || c.toNat = 0x85 || c.toNat = 0xA0 ||
  c.toNat = 0x1680 || (0x2000 ≤ c.toNat && c.toNat ≤ 0x200A) ||
  c.toNat = 0x2028 || c.toNat = 0x2029 || c.toNat = 0x202F ||
  c.toNat = 0x205F || c.toNat = 0x3000

/-- Space or tab, the cutset of `strings.TrimRight(line, " \t")` and
`strings.TrimLeft(line, " \t")` in `cleanText`. -/
def isST (c : Char) : Bool := c = ' ' || c = '\t'

/-- Embedding of `strings.ReplaceAll(text, "\r\n", "\n")`: left-to-right,
non-overlapping replacement of the two-character pattern. -/
def replCRLF : Str → Str
  | [] => []
  | '\r' :: '\n' :: rest => '\n' :: replCRLF rest
  | c :: rest => c :: replCRLF rest

/-- Embedding of `strings.ReplaceAll(text, "\r", "\n")`. -/
def replCR (l : Str) : Str := l.map (fun c => if c = '\r' then '\n' else c)

/-- Characters dropped by the `strings.Map` pass of `cleanText`:
U+200B, U+200C, U+200D, U+FEFF (zero-width) and U+00AD (soft hyphen). -/
def isDropped (c : Char) : Bool :=
  c.toNat = 0x200B || c.toNat = 0x200C || c.toNat = 0x200D ||
  c.toNat = 0xFEFF || c.toNat = 0xAD

/-- Embedding of the `strings.Map` pass of `cleanText`: drops zero-width
code points and soft hyphens, maps the non-breaking space U+00A0 to an
ordinary space, and keeps everything else. -/
def dropInvis (l : Str) : Str :=
  l.filterMap (fun c =>
    if isDropped c then none
    else if c.toNat = 0xA0 then some ' '
    else some c)

/-- Embedding of `strings.TrimLeft(l, " \t")`. -/
def trimLeftST (l : Str) : Str := l.dropWhile isST

/-- Embedding of `strings.TrimRight(l, " \t")`. -/
def trimRightST (l : Str) : Str := (l.reverse.dropWhile isST).reverse

/-- Embedding of Go `strings.TrimSpace` (trims `unicode.IsSpace` on both
ends). -/
def trimSpace (l : Str) : Str :=
  ((l.dropWhile goIsSpace).reverse.dropWhile goIsSpace).reverse

/-- Embedding of Go `strings.Fields`: the maximal runs of
non-`unicode.IsSpace` characters. -/
def fields (l : Str) : List Str :=
  (l.splitOnP goIsSpace).filter (fun w => ¬ w = [])

/-- Embedding of `strings.Join(ws, " ")`. -/
def joinSp (ws : List Str) : Str := (List.intercalate [' '] ws)

/-- Embedding of the per-line body of the cleaning loop in
`hybrid.cleanText`: trim trailing space/tab; report an empty line as
`none`; otherwise rebuild the line as its leading space/tab run (as
spaces) followed by its whitespace-normalized content. -/
def processLine (l₀ : Str) : Option Str :=
  let l := trimRightST l₀
  if trimSpace l = [] then none
  else
    let leadingSpaces := l.length - (trimLeftST l).length
    let content := trimSpace l
    let normalizedContent := joinSp (fields content)
    some (if 0 < leadingSpaces
      then List.replicate leadingSpaces ' ' ++ normalizedContent
      else normalizedContent)

/-- Embedding of the `consecutiveEmpty` loop of `hybrid.cleanText`: keep
every normalized line, and keep an empty line only while the run of
consecutive empties (counted in `k`) has not yet exceeded two. -/
def capLines : List (Option Str) → Nat → List Str
  | [], _ => []
  | none :: rest, k =>
    if k + 1 ≤ 2 then [] :: capLines rest (k + 1) else capLines rest (k + 1)
  | some l :: rest, _ => l :: capLines rest 0

/-- Embedding of `hybrid.cleanText` (hybrid.go): normalize CRLF/CR to LF,
drop zero-width code points and soft hyphens, map non-breaking spaces to
spaces, cap runs of empty lines at two, trim trailing whitespace per line,
collapse inner whitespace preserving leading indentation, and trim the
document's outer whitespace. -/
def cleanText (text : Str) : Str :=
  let t1 := replCR (replCRLF text)
  let t2 := dropInvis t1
  let lines := t2.splitOn '\n'
  trimSpace (List.intercalate ['\n'] (capLines (lines.map processLine) 0))

/-! ### IEEE-754 binary64 arithmetic, as exact dyadic rationals

Every finite Go `float64` is an exact dyadic rational `m * 2^e`. The
values this service computes (page counts below `2^53`, their quotients,
and those quotients times 100) stay far inside the normal range of
binary64, so a double is modelled by such a pair and each operation
rounds its exact rational result to 53 significant bits, ties to even.
All computations are pure `Int`/`Nat` arithmetic; `dval` interprets a
pair as the rational it denotes. -/

/-- A finite binary64 value `m * 2^e` (not necessarily normalized; NaN
and infinities never arise in the modelled computations). -/
structure F64 where
  m : ℤ
  e : ℤ
  deriving DecidableEq

/-- The exact rational value of a binary64 pair. -/
def dval (x : F64) : ℚ := (x.m : ℚ) * 2 ^ x.e

/-- Comparison `dval x ≤ dval y`, computed by aligning exponents. -/
def F64.leb (x y : F64) : Bool :=
  if x.e ≤ y.e then x.m ≤ y.m * (2 ^ (y.e - x.e).toNat : ℕ)
  else x.m * (2 ^ (x.e - y.e).toNat : ℕ) ≤ y.m

/-- Floor of the base-2 logarithm, by fueled halving; correct for
`1 ≤ n < 2^fuel` and used with fuel 320, far above every number that
arises here. -/
def log2Fuel : ℕ → ℕ → ℕ
  | 0, _ => 0
  | fuel + 1, n => if n ≤ 1 then 0 else log2Fuel fuel (n / 2) + 1

/-- Floor of the base-2 logarithm of a positive natural number. -/
def nlog2 (n : ℕ) : ℕ := log2Fuel 320 n

/-- Round the fraction `num / den` (with `0 < den`) to the nearest
integer, ties to even: IEEE-754 default rounding of a scaled
significand. -/
def rheQ (num den : ℤ) : ℤ :=
  let q := num / den
  let r := num % den
  if 2 * r < den then q
  else if den < 2 * r then q + 1
  else if 2 ∣ q then q else q + 1

/-- The binade exponent of the quotient `a / b` of two positive natural
numbers: the unique `e` with `2^e ≤ a/b < 2^(e+1)`, computed from the
integer base-2 logarithms of `a` and `b` with one correcting comparison. -/
def eexp (a b : ℕ) : ℤ :=
  let la := nlog2 a
  let lb := nlog2 b
  if (b * 2 ^ la : ℤ) ≤ (a * 2 ^ lb : ℤ) then (la : ℤ) - lb else (la : ℤ) - lb - 1

/-- Correctly rounded binary64 quotient of two positive integers: pick
the exponent `e` with `2^e ≤ a/b < 2^(e+1)`, scale the quotient into
`[2^52, 2^53)` and round the significand to the nearest integer, ties to
even. -/
def flsig (a b : ℕ) : F64 :=
  let e : ℤ := eexp a b
  let s : ℤ := 52 - e
  ⟨rheQ ((a : ℤ) * (2 ^ s.toNat : ℕ)) ((b : ℤ) * (2 ^ (-s).toNat : ℕ)), e - 52⟩

/-- Rounding a rational to the nearest integer, ties to even, stated on
the rational itself: the specification `rheQ` is proved to implement. -/
def rheRat (x : ℚ) : ℤ :=
  if Int.fract x < 1/2 then ⌊x⌋
  else if 1/2 < Int.fract x then ⌊x⌋ + 1
  else if 2 ∣ ⌊x⌋ then ⌊x⌋ else ⌊x⌋ + 1

/-- A rational that is the value of a normalized binary64 number (the
form every positive double in the normal range has). -/
def FloatRep (r : ℚ) : Prop :=
  ∃ m e : ℤ, r = (m : ℚ) * 2 ^ e ∧ 2 ^ 52 ≤ m ∧ m < 2 ^ 53

/-- The binary64 division `float64(a) / float64(b)` for natural `a`, `b`
below `2^53` (so that the two int-to-float conversions are exact). The
`b = 0` case (never reached by the modelled code) is mapped to zero to
keep the function total. -/
def flDiv (a b : ℕ) : F64 :=
  if a = 0 ∨ b = 0 then ⟨0, 0⟩ else flsig a b

/-- The binary64 product of a nonnegative binary64 `x` and a small
natural constant `c` (here always 100): multiply the significand exactly
and round back to 53 bits if the product grew beyond them. -/
def flMulNat (x : F64) (c : ℕ) : F64 :=
  if x.m ≤ 0 ∨ c = 0 then ⟨0, 0⟩
  else
    let p := x.m * c
    let lp := nlog2 p.toNat
    if lp ≤ 52 then ⟨p, x.e⟩
    else ⟨rheQ p ((2 ^ (lp - 52) : ℕ) : ℤ), x.e + (lp - 52)⟩

/-- Go conversion `int(x)` of a nonnegative binary64: truncation toward
zero, which on nonnegative values is the floor. -/
def truncF (x : F64) : ℤ :=
  if 0 ≤ x.e then x.m * (2 ^ x.e.toNat : ℕ) else x.m / ((2 ^ (-x.e).toNat : ℕ) : ℤ)

/-! ### Types of the hybrid engine (package `types`, reconstructed from
its uses in hybrid.go; field types follow the call sites). -/

/-- One page of the hybrid result (`types.PageExtractionResult`). -/
structure PageExtractionResult where
  pageNumber : ℤ
  text : Str
  method : String
  wordCount : ℤ
  deriving DecidableEq

/-- The hybrid result (`types.HybridExtractionResult`). -/
structure HybridExtractionResult where
  success : Bool
  text : Str
  pages : List PageExtractionResult
  totalPages : ℤ
  textLayerPages : ℤ
  ocrPages : ℤ
  costSavingsPercent : ℤ
  error : Option Str
  deriving DecidableEq

/-- Request options of the hybrid engine
(`types.HybridProcessorOptions`). -/
structure HybridProcessorOptions where
  pages : List ℤ
  includePageNumbers : Bool
  minWordsThreshold : ℤ
  pageSeparator : Str
  ocrTriggerRatio : F64
  ocrModel : Option Str
  extractHeader : Bool
  extractFooter : Bool
  previewMaxPages : ℤ
  previewMaxChars : ℤ
  deriving DecidableEq

/-- The hybrid defaults of `config.Config` consumed by
`Processor.ApplyDefaults`. -/
structure HybridConfig where
  defaultMinWordsThreshold : ℤ
  defaultPageSeparator : Str
  defaultOCRTriggerRatio : F64
  defaultOCRModel : Str
  defaultPreviewMaxPages : ℤ
  defaultPreviewMaxChars : ℤ

/-- Embedding of `Processor.ApplyDefaults` (hybrid.go): replace each
invalid option by the configured default and keep everything else. -/
def applyDefaults (cfg : HybridConfig) (opts : HybridProcessorOptions) :
    HybridProcessorOptions :=
  let o1 := if opts.minWordsThreshold ≤ 0
    then { opts with minWordsThreshold := cfg.defaultMinWordsThreshold } else opts
  let o2 := if o1.pageSeparator = []
    then { o1 with pageSeparator := cfg.defaultPageSeparator } else o1
  let o3 := if F64.leb o2.ocrTriggerRatio ⟨0, 0⟩
    then { o2 with ocrTriggerRatio := cfg.defaultOCRTriggerRatio } else o2
  let o4 := if o3.ocrModel = none
    then { o3 with ocrModel := some cfg.defaultOCRModel } else o3
  let o5 := if o4.previewMaxPages ≤ 0
    then { o4 with previewMaxPages := cfg.defaultPreviewMaxPages } else o4
  if o5.previewMaxChars ≤ 0
    then { o5 with previewMaxChars := cfg.defaultPreviewMaxChars } else o5

/-! ### The hybrid pipeline (`Processor.ProcessHybrid` and helpers)

The external effects of the pipeline are parameters (`HybridEnv`):
the `pdfinfo` page count, the per-page `pdftotext` outcome, whether a
worker acquired the semaphore before the context was cancelled, the
quality scorer and word counter (package `quality`, not part of the
sources), the page assembler (package `format`, not part of the
sources), and the remote OCR call. The per-page workers of
`extractPagesParallel` write to disjoint indices of a pre-sized slice
and synchronize on a `WaitGroup`, so the slice they deliver is the
per-index function of outcomes regardless of completion order. -/

/-- One page object of the Mistral OCR response (`ocr.OCRResponse`). -/
structure OCRPage where
  index : ℤ
  markdown : Str
  deriving DecidableEq

/-- Outcomes of the effectful calls made by one `ProcessHybrid`
invocation. -/
structure HybridEnv where
  pageCount : Except Str ℕ
  textForPage : ℤ → Except Unit Str
  semOK : ℕ → Bool
  score : Str → ℤ → ℤ × Bool
  countWords : Str → ℤ
  combine : List PageExtractionResult → Str → Bool → Str
  ocr : List ℤ → Except Str (List OCRPage)

/-- Go map assignment `m[k] = v` on an association list. -/
def upsert {α β : Type} [DecidableEq α] (k : α) (v : β) :
    List (α × β) → List (α × β)
  | [] => [(k, v)]
  | (k0, v0) :: rest =>
    if k0 = k then (k, v) :: rest else (k0, v0) :: upsert k v rest

/-- Go map lookup `m[k]` on an association list. -/
def lookupA {α β : Type} [DecidableEq α] (mp : List (α × β)) (k : α) :
    Option β :=
  (mp.find? (fun p => p.1 = k)).map (fun p => p.2)

/-- Embedding of `Processor.extractSinglePage`: extract the text layer of
one page, clean it, score it, and flag the page `needs-ocr` when the
extraction failed or the score demands OCR. -/
def extractSinglePage (env : HybridEnv) (page minWords : ℤ) :
    PageExtractionResult :=
  match env.textForPage page with
  | .error _ => ⟨page, [], "needs-ocr", 0⟩
  | .ok raw =>
    let text := cleanText raw
    let d := env.score text minWords
    if d.2 then ⟨page, [], "needs-ocr", d.1⟩ else ⟨page, text, "text-layer", d.1⟩

/-- Embedding of `Processor.extractPagesParallel`: the worker at index
`idx` yields the silent `needs-ocr` placeholder when it fails to acquire
the semaphore, and `extractSinglePage` otherwise; results land at their
planned index. -/
def extractPagesParallel (env : HybridEnv) (pages : List ℤ) (minWords : ℤ) :
    List PageExtractionResult :=
  pages.mapIdx fun idx page =>
    if env.semOK idx then extractSinglePage env page minWords
    else ⟨page, [], "needs-ocr", 0⟩

/-- Embedding of `runOCRBatch`: convert the one-based request to
zero-based indices, call the provider, and key each cleaned page markdown
by its one-based page number (later response entries overwrite earlier
ones, as Go map stores do). -/
def runOCRBatch (env : HybridEnv) (pages : List ℤ) :
    Except Str (List (ℤ × Str)) :=
  if pages = [] then .ok []
  else
    match env.ocr (pages.map (fun p => p - 1)) with
    | .error e => .error e
    | .ok resp =>
      .ok (resp.foldl (fun acc p => upsert (p.index + 1) (cleanText p.markdown) acc) [])

/-- Embedding of `mergeOCRResults`: overwrite a page with its OCR text
exactly when the response contains its page number and either a full
document OCR ran or the page was flagged `needs-ocr`. -/
def mergeOCRResults (env : HybridEnv) (pages : List PageExtractionResult)
    (ocrResults : List (ℤ × Str)) (fullOCR : Bool) : List PageExtractionResult :=
  pages.map fun pr =>
    match lookupA ocrResults pr.pageNumber with
    | some ocrText =>
      if fullOCR || pr.method == "needs-ocr"
      then ⟨pr.pageNumber, ocrText, "ocr", env.countWords ocrText⟩
      else pr
    | none => pr

/-- Embedding of `countOCRPages`. -/
def countOCRPages (pages : List PageExtractionResult) : ℤ :=
  ((pages.filter (fun p => p.method == "ocr")).length : ℤ)

/-- Embedding of `calculateSavings` (hybrid.go):
`int(float64(textLayerPages) / float64(totalPages) * 100)` guarded by
`totalPages == 0`. Both arguments are nonnegative wherever the code calls
it, so the int-to-float conversions are modelled through `Int.toNat`. -/
def calculateSavings (textLayerPages totalPages : ℤ) : ℤ :=
  if totalPages = 0 then 0
  else truncF (flMulNat (flDiv textLayerPages.toNat totalPages.toNat) 100)

/-- The planned page list of `ProcessHybrid`: the caller's list, or
`[1..totalPages]` when the caller's list is empty. -/
def plannedPages (opts : HybridProcessorOptions) (totalPages : ℕ) : List ℤ :=
  if opts.pages = [] then (List.range totalPages).map (fun i : ℕ => (i : ℤ) + 1)
  else opts.pages

/-- Phase 1 of `ProcessHybrid`: parallel per-page text-layer extraction
over the planned list. -/
def phase1 (env : HybridEnv) (opts : HybridProcessorOptions) (totalPages : ℕ) :
    List PageExtractionResult :=
  extractPagesParallel env (plannedPages opts totalPages) opts.minWordsThreshold

/-- The page numbers flagged `needs-ocr` by phase 2 of `ProcessHybrid`
(every page whose method is not `text-layer`). -/
def needsOCRList (env : HybridEnv) (opts : HybridProcessorOptions)
    (totalPages : ℕ) : List ℤ :=
  ((phase1 env opts totalPages).filter
    (fun pr => ¬ pr.method = "text-layer")).map (fun pr => pr.pageNumber)

/-- The OCR-trigger decision of `ProcessHybrid`:
`float64(len(needsOCRPages)) / float64(len(pages)) >= opts.OCRTriggerRatio`. -/
def shouldDoFullOCR (env : HybridEnv) (opts : HybridProcessorOptions)
    (totalPages : ℕ) : Bool :=
  F64.leb opts.ocrTriggerRatio
    (flDiv (needsOCRList env opts totalPages).length
      (plannedPages opts totalPages).length)

/-- The page list `ProcessHybrid` submits to OCR: `none` when no page is
flagged; the whole planned list on a full-document OCR; exactly the
flagged pages otherwise. -/
def ocrRequest (env : HybridEnv) (opts : HybridProcessorOptions)
    (totalPages : ℕ) : Option (List ℤ) :=
  let needs := needsOCRList env opts totalPages
  if 0 < needs.length then
    some (if shouldDoFullOCR env opts totalPages
      then plannedPages opts totalPages else needs)
  else none

/-- Embedding of `Processor.ProcessHybrid` (hybrid.go). Returns the
result together with the Go error value (second component). -/
def processHybrid (env : HybridEnv) (opts : HybridProcessorOptions) :
    HybridExtractionResult × Option Str :=
  match env.pageCount with
  | .error e =>
    let msg := "page count failed: ".toList ++ e
    (⟨false, [], [], 0, 0, 0, 0, some msg⟩, some e)
  | .ok totalPages =>
    if totalPages = 0 then
      let msg := "PDF has no pages".toList
      (⟨false, [], [], (totalPages : ℤ), 0, 0, 0, some msg⟩, some msg)
    else
      let pages := plannedPages opts totalPages
      let pageResults := phase1 env opts totalPages
      let needs := needsOCRList env opts totalPages
      let full := shouldDoFullOCR env opts totalPages
      let merged :=
        if 0 < needs.length then
          match runOCRBatch env (if full then pages else needs) with
          | .error e => (pageResults, some ("OCR failed: ".toList ++ e))
          | .ok ocrResults => (mergeOCRResults env pageResults ocrResults full, none)
        else (pageResults, none)
      let ocrCount := countOCRPages merged.1
      let tl := (merged.1.length : ℤ) - ocrCount
      (⟨true, env.combine merged.1 opts.pageSeparator opts.includePageNumbers,
        merged.1, (totalPages : ℤ), tl, ocrCount,
        calculateSavings tl (totalPages : ℤ), merged.2⟩, none)

/-! ### Universal extraction: registry, router, fetcher, counters
(packages `extract` and `extractor`). -/

/-- Embedding of Go `strings.ToLower` restricted to ASCII letters (the
registry keys and MIME strings exercised by the claims are ASCII; the
full Unicode case table is irrelevant to the resolution precedence). -/
def goToLower (s : Str) : Str := s.map Char.toLower

/-- One page of the universal `extract.Result` (`extract.PageResult`);
it has exactly the shape of a hybrid page result. -/
abbrev PageResult := PageExtractionResult

/-- The unified output shape (`extract.Result`). -/
structure Result where
  success : Bool
  text : Str
  method : Str
  fileType : Str
  mimeType : Str
  pages : List PageResult
  metadata : List (Str × Str)
  wordCount : ℤ
  charCount : ℤ
  error : Option Str
  deriving DecidableEq

/-- Embedding of `extract.BuildCounts`: char count is the number of
runes, word count the number of maximal runs of characters outside
`{' ', '\n', '\t', '\r'}`. -/
def bcIsSpace (c : Char) : Bool := c = ' ' || c = '\n' || c = '\t' || c = '\r'

/-- Embedding of `extract.BuildCounts` (word count, char count). -/
def buildCounts (text : Str) : ℤ × ℤ :=
  ((((text.splitOnP bcIsSpace).filter (fun w => ¬ w = [])).length : ℤ),
   (text.length : ℤ))

/-- An extractor registration (`extract.Extractor` capability set),
with the outcome of its one `Extract` invocation as data. -/
structure GoExtractor where
  name : Str
  supportedTypes : List Str
  supportedExtensions : List Str
  maxFileSize : ℤ
  run : Result × Option Str
  deriving DecidableEq

/-- The two lookup maps of `extract.Registry`. -/
structure Registry where
  byMIME : List (Str × GoExtractor)
  byExtension : List (Str × GoExtractor)
  extractors : List GoExtractor

/-- Embedding of `Registry.Register`: file the extractor under each of
its lowercased, trimmed, non-empty MIME types and extensions (later
registrations overwrite earlier ones). -/
def register (r : Registry) (e : GoExtractor) : Registry :=
  let byMIME := e.supportedTypes.foldl
    (fun acc mt =>
      let key := goToLower (trimSpace mt)
      if key = [] then acc else upsert key e acc)
    r.byMIME
  let byExtension := e.supportedExtensions.foldl
    (fun acc ext =>
      let key := goToLower (trimSpace ext)
      if key = [] then acc else upsert key e acc)
    r.byExtension
  ⟨byMIME, byExtension, r.extractors ++ [e]⟩

/-- Embedding of `extract.NewRegistry` followed by a sequence of
`Register` calls. -/
def registerAll (es : List GoExtractor) : Registry :=
  es.foldl register ⟨[], [], []⟩

/-- The `no_extractor` failure message of `Registry.Resolve`. -/
def noExtractorMsg (mimeType extension : Str) : Str :=
  "no extractor registered for mime=".toList ++ mimeType ++
    " extension=".toList ++ extension

/-- Embedding of `Registry.Resolve` (registry.go): extension match, then
exact MIME match, then MIME with trailing `;`-parameters stripped, then
the `text/plain` fallback for any `text/` MIME, else `no_extractor`. -/
def resolve (r : Registry) (mimeType extension : Str) : Except Str GoExtractor :=
  let mt := goToLower (trimSpace mimeType)
  let ext := goToLower (trimSpace extension)
  match lookupA r.byExtension ext with
  | some e => .ok e
  | none =>
  match lookupA r.byMIME mt with
  | some e => .ok e
  | none =>
  let afterStrip : Except Str GoExtractor :=
    if ("text/".toList).isPrefixOf mt then
      match lookupA r.byMIME ("text/plain".toList) with
      | some e => .ok e
      | none => .error (noExtractorMsg mimeType extension)
    else .error (noExtractorMsg mimeType extension)
  match mt.findIdx? (fun c => c = ';') with
  | some i =>
    if 0 < i then
      match lookupA r.byMIME (trimSpace (mt.take i)) with
      | some e => .ok e
      | none => afterStrip
    else afterStrip
  | none => afterStrip

/-- Embedding of Go `filepath.Ext`: the suffix beginning at the final
dot in the final path element, empty when that element has no dot. -/
def filepathExt (name : Str) : Str :=
  let seg := name.reverse.takeWhile (fun c => ¬ c = '/')
  match seg.findIdx? (fun c => c = '.') with
  | some i => (seg.take (i + 1)).reverse
  | none => []

/-- The downloaded artifact (`extract.DownloadedFile`). -/
structure DownloadedFile where
  tempDir : Str
  path : Str
  mimeType : Str
  size : ℤ
  deriving DecidableEq

/-- Effect outcome consumed by one `Router.Extract` invocation. -/
structure RouterEnv where
  download : Except Str DownloadedFile

/-- The universal request (`extract.UniversalExtractRequest`; the options
mapping is irrelevant to the embedded control flow). -/
structure RouterReq where
  presignedURL : Str
  fileName : Str

/-- Embedding of `errResult` (router). -/
def errResult (message : Str) : Result :=
  ⟨false, [], [], [], [], [], [], 0, 0, some message⟩

/-- Embedding of `Router.Extract` (router): validate the URL, download,
resolve an extractor, enforce its size limit, invoke it, and normalize
the outcome. Returns the result together with the Go error value. -/
def routerExtract (env : RouterEnv) (registry : Registry) (req : RouterReq) :
    Result × Option Str :=
  if trimSpace req.presignedURL = [] then
    (errResult "presignedUrl required".toList, some "presignedUrl required".toList)
  else
    let fileName := if trimSpace req.fileName = [] then "input.bin".toList
      else trimSpace req.fileName
    match env.download with
    | .error e => (errResult e, some e)
    | .ok dl =>
      let ext := goToLower (filepathExt fileName)
      match resolve registry dl.mimeType ext with
      | .error e =>
        ({ errResult e with mimeType := dl.mimeType, fileType := "unknown".toList },
          some e)
      | .ok ex =>
        if 0 < ex.maxFileSize ∧ ex.maxFileSize < dl.size then
          let msg := "file exceeds extractor limit".toList
          ({ errResult msg with mimeType := dl.mimeType, fileType := ex.name },
            some msg)
        else
          let res := ex.run.1
          match ex.run.2 with
          | some e =>
            let r1 := { res with
              error := if res.error = none then some e else res.error,
              success := false,
              mimeType := if res.mimeType = [] then dl.mimeType else res.mimeType }
            (r1, some e)
          | none =>
            let r1 := { res with
              success := true,
              mimeType := if res.mimeType = [] then dl.mimeType else res.mimeType }
            let bc := buildCounts r1.text
            let r2 := if r1.charCount = 0 ∧ ¬ r1.text = [] then
                { r1 with wordCount := bc.1, charCount := bc.2 }
              else r1
            (r2, none)

/-! ### The fetcher size cap (`extract.DownloadToTemp`, lines 70-79)

`maxBytes` is a Go `int64`; `maxBytes + 1` wraps. The `io.LimitedReader`
reads nothing when its budget `N` is not positive, and otherwise at most
`N` bytes; `io.Copy` then reports the bytes written. -/

/-- Two's-complement wrapping of a 64-bit signed addition result. -/
def wrap64 (x : ℤ) : ℤ := (x + 2 ^ 63) % 2 ^ 64 - 2 ^ 63

/-- Outcome of the bounded-read portion of `DownloadToTemp`: the size
check verdict, the number of body bytes consumed, and whether the
workspace directory was removed. -/
structure DownloadCoreOut where
  result : Except Unit ℤ
  bytesRead : ℤ
  dirRemoved : Bool

/-- Whether the bounded read ended in the `too_large` failure. -/
def DownloadCoreOut.failed (o : DownloadCoreOut) : Bool :=
  match o.result with
  | .error _ => true
  | .ok _ => false

/-- Embedding of `DownloadToTemp` lines 70-79: copy the response body
through `io.LimitedReader{N: maxBytes + 1}` and fail (removing the
workspace) when more than `maxBytes` bytes arrived. The error case is
the `file exceeds %dMB limit` (`too_large`) failure. -/
def downloadCore (maxBytes : ℤ) (bodyLen : ℕ) : DownloadCoreOut :=
  let N := wrap64 (maxBytes + 1)
  let n : ℤ := if N ≤ 0 then 0 else min (bodyLen : ℤ) N
  if maxBytes < n then ⟨.error (), n, true⟩ else ⟨.ok n, n, false⟩

/-! ### Poppler error classification (`extractor` package). -/

/-- The distinguishable failures produced by `parsePages`,
`validatePages` and `classifyPopplerErr`; each constructor corresponds
to one canonical Go error message. -/
inductive PopplerErr where
  /-- `pdfinfo: unreasonable page count: %d` -/
  | unreasonablePageCount (n : ℤ)
  /-- `PDF is password protected` -/
  | passwordProtected
  /-- `PDF appears to be damaged or invalid` -/
  | damaged
  /-- `%s timeout` -/
  | toolTimeout (tool : Str)
  /-- `%s failed (bad invocation)` -/
  | badInvocation (tool : Str)
  /-- `%s failed: %s` -/
  | toolFailed (tool stderr : Str)
  /-- `%s failed: %w` with empty stderr -/
  | execFailed (tool : Str)
  deriving DecidableEq

/-- Embedding of `validatePages` (poppler.go): reject a parsed page
count at or below zero or above 50000. -/
def validatePages (count : ℤ) : Except PopplerErr ℤ :=
  if count ≤ 0 ∨ 50000 < count then .error (.unreasonablePageCount count)
  else .ok count

/-- Substring test (`strings.Contains`). -/
def isSubstr (pat s : Str) : Bool :=
  (List.range (s.length + 1)).any (fun i => pat.isPrefixOf (s.drop i))

/-- Embedding of `containsAny`. -/
def containsAny (s : Str) (needles : List Str) : Bool :=
  needles.any (fun n => isSubstr n s)

/-- Embedding of `isHelpOrUsageOutput`. -/
def isHelpOrUsageOutput (stderr : Str) : Bool :=
  isSubstr "version ".toList stderr && isSubstr "Usage:".toList stderr

/-- The apostrophe character (U+0027), used inside poppler error
needles. -/
def apos : Char := Char.ofNat 39

/-- Embedding of `classifyPopplerErr` (poppler.go): timeout first, then
help/usage guard, then password, then damage keywords, then a generic
tool failure carrying stderr. -/
def classifyPopplerErr (tool : Str) (deadlineExceeded : Bool) (stderr0 : Str) :
    PopplerErr :=
  if deadlineExceeded then .toolTimeout tool
  else
    let stderr := trimSpace stderr0
    if stderr = [] then .execFailed tool
    else if isHelpOrUsageOutput stderr then .badInvocation tool
    else if containsAny stderr
      ["Incorrect password".toList,
       "Command Line Error: Incorrect password".toList] then .passwordProtected
    else if containsAny stderr
      ["PDF file is damaged".toList,
       "Syntax Error".toList,
       "Couldn".toList ++ apos :: "t find trailer dictionary".toList,
       "May not be a PDF file".toList] then .damaged
    else .toolFailed tool stderr

/-- The extractor the spec's precedence rules select for one lookup key:
the last registration whose (lowercased, trimmed) key set contains the
non-empty key. Written from the spec's words for the refinement claim
about `Resolve`. -/
def lastRegistered (regs : List GoExtractor) (proj : GoExtractor → List Str)
    (k : Str) : Option GoExtractor :=
  regs.reverse.find?
    (fun e => decide (¬ k = [] ∧ k ∈ (proj e).map (fun s => goToLower (trimSpace s))))

/-- The resolution precedence as the spec states it, over the raw
registration sequence (extension, exact MIME, parameter-stripped MIME,
`text/` fallback, `no_extractor`): the reference point of the refinement
theorem for `Registry.Resolve`. -/
def resolveSpec (regs : List GoExtractor) (mimeType extension : Str) :
    Except Str GoExtractor :=
  let mt := goToLower (trimSpace mimeType)
  let ext := goToLower (trimSpace extension)
  match lastRegistered regs (fun e => e.supportedExtensions) ext with
  | some e => .ok e
  | none =>
  match lastRegistered regs (fun e => e.supportedTypes) mt with
  | some e => .ok e
  | none =>
  let afterStrip : Except Str GoExtractor :=
    if ("text/".toList).isPrefixOf mt then
      match lastRegistered regs (fun e => e.supportedTypes) ("text/plain".toList) with
      | some e => .ok e
      | none => .error (noExtractorMsg mimeType extension)
    else .error (noExtractorMsg mimeType extension)
  match mt.findIdx? (fun c => c = ';') with
  | some i =>
    if 0 < i then
      match lastRegistered regs (fun e => e.supportedTypes) (trimSpace (mt.take i)) with
      | some e => .ok e
      | none => afterStrip
    else afterStrip
  | none => afterStrip

/-! ### Concrete scenarios used to separate claims from the code. -/

/-- The hybrid defaults the configuration ships
(`DEFAULT_MIN_WORDS` 20, separator, ratio 0.25, model, preview 8 pages /
20000 chars). -/
def cfg0 : HybridConfig :=
  ⟨20, "\n\n---\n\n".toList, ⟨1, -2⟩, "mistral-ocr-latest".toList, 8, 20000⟩

/-- Options with every field valid: trigger ratio 0.25, defaults as the
configuration ships them. -/
def opts0 : HybridProcessorOptions :=
  ⟨[], false, 20, "\n\n---\n\n".toList, ⟨1, -2⟩, some "mistral-ocr-latest".toList,
    false, false, 8, 20000⟩

/-- A four-page run in which exactly page 2 is flagged: its flagged
fraction 1/4 is exactly the 0.25 trigger ratio. -/
def envOneOfFour : HybridEnv :=
  ⟨.ok 4, fun p => if p = 2 then .error () else .ok "enough words here".toList,
    fun _ => true, fun _ _ => (50, false), fun _ => 1,
    fun _ _ _ => [], fun pages => .ok (pages.map (fun p => ⟨p, "ocr text".toList⟩))⟩

/-- A single-page run whose text layer fails (flagging the page) and
whose OCR call fails: the code then emits a successful result that still
carries the OCR error and the transient `needs-ocr` method. -/
def envOCRFail : HybridEnv :=
  ⟨.ok 1, fun _ => .error (), fun _ => true, fun _ _ => (0, true), fun _ => 0,
    fun _ _ _ => [], fun _ => .error "boom".toList⟩

/-- A five-page run in which exactly page 3 is flagged `needs-ocr` and
OCR answers every requested page: used against the trigger-ratio
boundary with the double nearest 0.2 as the ratio. -/
def envOneOfFive : HybridEnv :=
  ⟨.ok 5, fun p => if p = 3 then .error () else .ok "enough words here".toList,
    fun _ => true, fun _ _ => (50, false), fun _ => 1,
    fun _ _ _ => [], fun pages => .ok (pages.map (fun p => ⟨p, "ocr text".toList⟩))⟩

end Fileproc

section ScratchChecks
open Fileproc
example : cleanText "a  b \n\n\n\nc".toList = "a b\n\n\nc".toList := by decide
example : cleanText "  x\r\ny z  ".toList = "x\ny z".toList := by decide
example : cleanText "​a­b".toList = "ab".toList := by decide
example : cleanText "  ind\n   keep  in".toList = "ind\n   keep in".toList := by decide
example : flDiv 1 4 = ⟨2 ^ 52, -54⟩ := by decide
example : flDiv 1 5 = ⟨7205759403792794, -55⟩ := by decide
example : truncF (flMulNat (flDiv 29 100) 100) = 28 := by decide
example : truncF (flMulNat (flDiv 30 100) 100) = 30 := by decide
example : truncF (flMulNat (flDiv 57 100) 100) = 56 := by decide
example : truncF (flMulNat (flDiv 29 50) 100) = 57 := by decide
example : (processHybrid envOCRFail opts0).1.success = true := by decide
example : (processHybrid envOCRFail opts0).1.error ≠ none := by decide
example : ((processHybrid envOCRFail opts0).1.pages.map (fun p => p.method)) = ["needs-ocr"] := by decide
example :
    ocrRequest envOneOfFive { opts0 with ocrTriggerRatio := ⟨7205759403792794, -55⟩ } 5 =
      some [1, 2, 3, 4, 5] := by decide
example : ocrRequest envOneOfFive { opts0 with ocrTriggerRatio := ⟨3, -3⟩ } 5 = some [3] := by decide
example : (processHybrid envOneOfFive opts0).1.costSavingsPercent = 80 := by decide
end ScratchChecks

namespace Fileproc

/-! ### Basic facts about the binary64 embedding. -/

theorem cast_pow2_toNat {a b : ℤ} (h : a ≤ b) :
    (((2 : ℕ) ^ (b - a).toNat : ℕ) : ℚ) = (2 : ℚ) ^ (b - a) := by
  push_cast
  rw [← zpow_natCast, Int.toNat_of_nonneg (by omega)]

theorem dval_leb_iff (x y : F64) : F64.leb x y = true ↔ dval x ≤ dval y := by
  unfold F64.leb dval
  split_ifs with h
  · rw [decide_eq_true_iff]
    have key : (y.m : ℚ) * 2 ^ y.e =
        ((y.m * ((2 : ℕ) ^ (y.e - x.e).toNat : ℕ) : ℤ) : ℚ) * (2 : ℚ) ^ x.e := by
      push_cast
      rw [← zpow_natCast (2 : ℚ) (y.e - x.e).toNat,
        Int.toNat_of_nonneg (by omega : (0 : ℤ) ≤ y.e - x.e), mul_assoc,
        ← zpow_add₀ (two_ne_zero : (2 : ℚ) ≠ 0), sub_add_cancel]
    rw [key, mul_le_mul_right (zpow_pos (by norm_num) _), Int.cast_le]
  · rw [decide_eq_true_iff]
    have key : (x.m : ℚ) * 2 ^ x.e =
        ((x.m * ((2 : ℕ) ^ (x.e - y.e).toNat : ℕ) : ℤ) : ℚ) * (2 : ℚ) ^ y.e := by
      push_cast
      rw [← zpow_natCast (2 : ℚ) (x.e - y.e).toNat,
        Int.toNat_of_nonneg (by omega : (0 : ℤ) ≤ x.e - y.e), mul_assoc,
        ← zpow_add₀ (two_ne_zero : (2 : ℚ) ≠ 0), sub_add_cancel]
    rw [key, mul_le_mul_right (zpow_pos (by norm_num) _), Int.cast_le]

end Fileproc

namespace Fileproc

/-! ### C10: ApplyDefaults in closed form. -/

/-- The six defaulting steps touch pairwise distinct fields and each
condition reads a field no earlier step wrote, so `applyDefaults` is the
one-shot record below. -/
theorem applyDefaults_eq (cfg : HybridConfig) (opts : HybridProcessorOptions) :
    applyDefaults cfg opts =
      { pages := opts.pages,
        includePageNumbers := opts.includePageNumbers,
        minWordsThreshold := if opts.minWordsThreshold ≤ 0
          then cfg.defaultMinWordsThreshold else opts.minWordsThreshold,
        pageSeparator := if opts.pageSeparator = []
          then cfg.defaultPageSeparator else opts.pageSeparator,
        ocrTriggerRatio := if F64.leb opts.ocrTriggerRatio ⟨0, 0⟩
          then cfg.defaultOCRTriggerRatio else opts.ocrTriggerRatio,
        ocrModel := if opts.ocrModel = none
          then some cfg.defaultOCRModel else opts.ocrModel,
        extractHeader := opts.extractHeader,
        extractFooter := opts.extractFooter,
        previewMaxPages := if opts.previewMaxPages ≤ 0
          then cfg.defaultPreviewMaxPages else opts.previewMaxPages,
        previewMaxChars := if opts.previewMaxChars ≤ 0
          then cfg.defaultPreviewMaxChars else opts.previewMaxChars } := by
  unfold applyDefaults
  by_cases h1 : opts.minWordsThreshold ≤ 0 <;>
  by_cases h2 : opts.pageSeparator = [] <;>
  by_cases h3 : F64.leb opts.ocrTriggerRatio ⟨0, 0⟩ <;>
  by_cases h4 : opts.ocrModel = none <;>
  by_cases h5 : opts.previewMaxPages ≤ 0 <;>
  by_cases h6 : opts.previewMaxChars ≤ 0 <;>
  simp [h1, h2, h3, h4, h5, h6]

end Fileproc

namespace Fileproc

/-- C10: `ApplyDefaults` never overwrites a caller-supplied option that
is already valid: every valid field survives unchanged, every invalid
field is replaced by its configuration default, and the fields outside
the defaulting logic (Pages, IncludePageNumbers, ExtractHeader,
ExtractFooter) pass through untouched. -/
theorem c10_applyDefaults_preserves_valid (cfg : HybridConfig)
    (opts : HybridProcessorOptions) :
    (0 < opts.minWordsThreshold →
      (applyDefaults cfg opts).minWordsThreshold = opts.minWordsThreshold) ∧
    (opts.minWordsThreshold ≤ 0 →
      (applyDefaults cfg opts).minWordsThreshold = cfg.defaultMinWordsThreshold) ∧
    (¬ opts.pageSeparator = [] →
      (applyDefaults cfg opts).pageSeparator = opts.pageSeparator) ∧
    (opts.pageSeparator = [] →
      (applyDefaults cfg opts).pageSeparator = cfg.defaultPageSeparator) ∧
    (0 < dval opts.ocrTriggerRatio →
      (applyDefaults cfg opts).ocrTriggerRatio = opts.ocrTriggerRatio) ∧
    (dval opts.ocrTriggerRatio ≤ 0 →
      (applyDefaults cfg opts).ocrTriggerRatio = cfg.defaultOCRTriggerRatio) ∧
    (¬ opts.ocrModel = none →
      (applyDefaults cfg opts).ocrModel = opts.ocrModel) ∧
    (opts.ocrModel = none →
      (applyDefaults cfg opts).ocrModel = some cfg.defaultOCRModel) ∧
    (0 < opts.previewMaxPages →
      (applyDefaults cfg opts).previewMaxPages = opts.previewMaxPages) ∧
    (opts.previewMaxPages ≤ 0 →
      (applyDefaults cfg opts).previewMaxPages = cfg.defaultPreviewMaxPages) ∧
    (0 < opts.previewMaxChars →
      (applyDefaults cfg opts).previewMaxChars = opts.previewMaxChars) ∧
    (opts.previewMaxChars ≤ 0 →
      (applyDefaults cfg opts).previewMaxChars = cfg.defaultPreviewMaxChars) ∧
    (applyDefaults cfg opts).pages = opts.pages ∧
    (applyDefaults cfg opts).includePageNumbers = opts.includePageNumbers ∧
    (applyDefaults cfg opts).extractHeader = opts.extractHeader ∧
    (applyDefaults cfg opts).extractFooter = opts.extractFooter := by
  have hc : (F64.leb opts.ocrTriggerRatio ⟨0, 0⟩ = true) ↔
      dval opts.ocrTriggerRatio ≤ 0 := by
    rw [dval_leb_iff]
    simp [dval]
  rw [applyDefaults_eq]
  refine ⟨fun h => ?_, fun h => ?_, fun h => ?_, fun h => ?_, fun h => ?_,
    fun h => ?_, fun h => ?_, fun h => ?_, fun h => ?_, fun h => ?_,
    fun h => ?_, fun h => ?_, rfl, rfl, rfl, rfl⟩ <;>
    simp_all <;> omega

/-- Witness for C10 at concrete valid options: nothing is overwritten. -/
theorem c10_applyDefaults_preserves_valid_witness :
    (applyDefaults cfg0 opts0).minWordsThreshold = 20 ∧
    (applyDefaults cfg0 opts0).ocrTriggerRatio = ⟨1, -2⟩ ∧
    (applyDefaults cfg0 opts0).pageSeparator = opts0.pageSeparator := by
  obtain ⟨h1, _, h3, _, h5, _⟩ := c10_applyDefaults_preserves_valid cfg0 opts0
  have hr : (0 : ℚ) < dval ⟨1, -2⟩ := by
    simp only [dval]
    positivity
  exact ⟨h1 (by decide), h5 hr, h3 (by decide)⟩

end Fileproc

namespace Fileproc

/-! ### C7: page-count validation boundaries. -/

/-- C7 counterexample: a parsed page count of 0 does not fail with the
`damaged` kind; `validatePages` raises `unreasonable_page_count` for it,
exactly as it does for 50001. -/
theorem c7_zero_pages_not_damaged :
    validatePages 0 = .error (.unreasonablePageCount 0) ∧
    validatePages 0 ≠ .error .damaged := by
  constructor <;> decide

/-- C7 amended: a parsed count of 0 fails with `unreasonable_page_count`
(the same kind as 50001, not `damaged`); a parsed count of 50001 fails
with `unreasonable_page_count`; every count in [1, 50000] is accepted,
and nothing else is. -/
theorem c7_validatePages_boundaries :
    validatePages 0 = .error (.unreasonablePageCount 0) ∧
    validatePages 50001 = .error (.unreasonablePageCount 50001) ∧
    ∀ n : ℤ, (validatePages n = .ok n ↔ 1 ≤ n ∧ n ≤ 50000) := by
  refine ⟨by decide, by decide, fun n => ?_⟩
  unfold validatePages
  split_ifs with h
  · constructor
    · intro hx
      exact absurd hx (by simp)
    · intro hx
      omega
  · simp
    omega

end Fileproc

namespace Fileproc

/-! ### C6: the download size cap. -/

/-- `maxBytes + 1` stays a genuine 64-bit value throughout the claimed
range short of `2^63 - 1`. -/
theorem wrap64_eq_self {x : ℤ} (h1 : -(2 ^ 63) ≤ x) (h2 : x < 2 ^ 63) :
    wrap64 x = x := by
  unfold wrap64
  omega

/-- C6 counterexample: at `maxBytes = 2^63 - 1` (a legal int64 value,
hence inside the claimed range `maxBytes ≥ 0`), `maxBytes + 1` overflows
to the most negative int64, the `io.LimitedReader` budget becomes
non-positive, nothing is read, and a body of `maxBytes + 1` bytes — which
the claim says must fail with `too_large` and remove the workspace — is
accepted with no bytes read and the workspace kept. -/
theorem c6_overflow_counterexample :
    (downloadCore (2 ^ 63 - 1) (2 ^ 63)).failed = false ∧
    (downloadCore (2 ^ 63 - 1) (2 ^ 63)).dirRemoved = false ∧
    (downloadCore (2 ^ 63 - 1) (2 ^ 63)).bytesRead = 0 := by
  refine ⟨?_, ?_, ?_⟩ <;> decide

/-- C6 amended: for every `maxBytes` in `[0, 2^63 - 2]` (so that
`maxBytes + 1` does not overflow int64), the body read is capped at
`maxBytes + 1` bytes; a body of exactly `maxBytes` bytes passes the size
check with the workspace kept; a body of `maxBytes + 1` or more bytes
fails with the `too_large` error and removes the workspace. -/
theorem c6_downloadCore_cap (maxBytes : ℤ) (bodyLen : ℕ)
    (h0 : 0 ≤ maxBytes) (h1 : maxBytes ≤ 2 ^ 63 - 2) :
    (downloadCore maxBytes bodyLen).bytesRead ≤ maxBytes + 1 ∧
    ((bodyLen : ℤ) = maxBytes →
      (downloadCore maxBytes bodyLen).failed = false ∧
      (downloadCore maxBytes bodyLen).dirRemoved = false) ∧
    (maxBytes + 1 ≤ (bodyLen : ℤ) →
      (downloadCore maxBytes bodyLen).failed = true ∧
      (downloadCore maxBytes bodyLen).dirRemoved = true) := by
  have hw : wrap64 (maxBytes + 1) = maxBytes + 1 := wrap64_eq_self (by omega) (by omega)
  simp only [downloadCore, hw]
  split_ifs with hN hfail hfail <;>
    simp_all [DownloadCoreOut.failed] <;> omega

/-- Witness for C6 at `maxBytes = 5`: a 5-byte body passes, a 6-byte
body is rejected with the workspace removed. -/
theorem c6_downloadCore_cap_witness :
    (downloadCore 5 5).failed = false ∧ (downloadCore 5 6).failed = true ∧
    (downloadCore 5 6).dirRemoved = true := by
  obtain ⟨-, hpass, -⟩ := c6_downloadCore_cap 5 5 (by decide) (by decide)
  obtain ⟨-, -, hfail⟩ := c6_downloadCore_cap 5 6 (by decide) (by decide)
  exact ⟨(hpass (by decide)).1, (hfail (by decide)).1, (hfail (by decide)).2⟩

end Fileproc

namespace Fileproc

/-! ### C5: page ordering. -/

theorem extractSinglePage_pageNumber (env : HybridEnv) (page mw : ℤ) :
    (extractSinglePage env page mw).pageNumber = page := by
  unfold extractSinglePage
  cases h : env.textForPage page with
  | error e => rfl
  | ok raw =>
    dsimp only
    split_ifs <;> rfl

theorem extractPagesParallel_length (env : HybridEnv) (pages : List ℤ) (mw : ℤ) :
    (extractPagesParallel env pages mw).length = pages.length := by
  simp [extractPagesParallel]

theorem extractPagesParallel_pageNumber (env : HybridEnv) (pages : List ℤ)
    (mw : ℤ) (i : ℕ) (h : i < pages.length)
    (h2 : i < (extractPagesParallel env pages mw).length) :
    ((extractPagesParallel env pages mw).get ⟨i, h2⟩).pageNumber =
      pages.get ⟨i, h⟩ := by
  unfold extractPagesParallel
  rw [List.get_mapIdx _ _ _ h]
  split_ifs
  · exact extractSinglePage_pageNumber _ _ _
  · rfl

theorem mergeOCRResults_length (env : HybridEnv)
    (pages : List PageExtractionResult) (ocrR : List (ℤ × Str)) (full : Bool) :
    (mergeOCRResults env pages ocrR full).length = pages.length := by
  simp [mergeOCRResults]

theorem mergeOCRResults_pageNumber (env : HybridEnv)
    (pages : List PageExtractionResult) (ocrR : List (ℤ × Str)) (full : Bool)
    (i : ℕ) (h : i < pages.length)
    (h2 : i < (mergeOCRResults env pages ocrR full).length) :
    ((mergeOCRResults env pages ocrR full).get ⟨i, h2⟩).pageNumber =
      (pages.get ⟨i, h⟩).pageNumber := by
  unfold mergeOCRResults
  rw [List.get_map]
  cases lookupA ocrR (pages.get ⟨i, h⟩).pageNumber with
  | none => rfl
  | some t =>
    dsimp only
    split_ifs <;> rfl

end Fileproc

namespace Fileproc

/-- Page numbers of the per-page workers are exactly the planned list. -/
theorem map_pageNumber_extractPagesParallel (env : HybridEnv) (pages : List ℤ)
    (mw : ℤ) :
    (extractPagesParallel env pages mw).map (fun p => p.pageNumber) = pages := by
  unfold extractPagesParallel
  rw [List.mapIdx_eq_ofFn, List.map_ofFn]
  have : ∀ i : Fin pages.length,
      ((fun p => p.pageNumber) ∘ fun i : Fin pages.length =>
        if env.semOK i then extractSinglePage env (pages.get i) mw
        else ⟨pages.get i, [], "needs-ocr", 0⟩) i = pages.get i := by
    intro i
    simp only [Function.comp]
    split_ifs
    · exact extractSinglePage_pageNumber _ _ _
    · rfl
  rw [funext this, List.ofFn_get]

/-- Merging OCR output never renumbers pages. -/
theorem map_pageNumber_merge (env : HybridEnv) (ps : List PageExtractionResult)
    (m : List (ℤ × Str)) (full : Bool) :
    (mergeOCRResults env ps m full).map (fun p => p.pageNumber) =
      ps.map (fun p => p.pageNumber) := by
  unfold mergeOCRResults
  rw [List.map_map]
  refine List.map_congr_left ?_
  intro pr _
  simp only [Function.comp]
  cases lookupA m pr.pageNumber with
  | none => rfl
  | some t =>
    dsimp only
    split_ifs <;> rfl

/-- C5: with an empty explicit page option, the emitted Pages sequence
lists one entry per counted page, in order: its page numbers are exactly
`[1, 2, ..., N]` (so `Pages[i].PageNumber = i + 1` for every `i`), for
every semaphore/extractor/scorer/OCR outcome — the workers write to
disjoint indices of a pre-sized slice, so completion order cannot affect
the emitted order. -/
theorem c5_page_ordering (env : HybridEnv) (opts : HybridProcessorOptions)
    (N : ℕ) (hpages : opts.pages = []) (hpc : env.pageCount = .ok N) :
    (processHybrid env opts).1.pages.map (fun p => p.pageNumber) =
      (List.range N).map (fun i : ℕ => (i : ℤ) + 1) := by
  have hplanned : plannedPages opts N = (List.range N).map (fun i : ℕ => (i : ℤ) + 1) := by
    rw [plannedPages, if_pos hpages]
  unfold processHybrid
  rw [hpc]
  dsimp only
  by_cases hN : N = 0
  · subst hN
    simp
  · rw [if_neg hN]
    dsimp only
    split_ifs with hneeds hfull
    · cases hocr : runOCRBatch env (plannedPages opts N) with
      | error e =>
        simp only [hocr]
        rw [phase1, map_pageNumber_extractPagesParallel, hplanned]
      | ok ocrR =>
        simp only [hocr]
        rw [map_pageNumber_merge, phase1, map_pageNumber_extractPagesParallel, hplanned]
    · cases hocr : runOCRBatch env (needsOCRList env opts N) with
      | error e =>
        simp only [hocr]
        rw [phase1, map_pageNumber_extractPagesParallel, hplanned]
      | ok ocrR =>
        simp only [hocr]
        rw [map_pageNumber_merge, phase1, map_pageNumber_extractPagesParallel, hplanned]
    · rw [phase1, map_pageNumber_extractPagesParallel, hplanned]

/-- Witness for C5: the concrete five-page scenario emits page numbers
1..5 in order. -/
theorem c5_page_ordering_witness :
    (processHybrid envOneOfFive opts0).1.pages.map (fun p => p.pageNumber) =
      [1, 2, 3, 4, 5] := by
  rw [c5_page_ordering envOneOfFive opts0 5 (by decide) (by decide)]
  decide

end Fileproc

namespace Fileproc

/-! ### C1: the success/error invariant. -/

/-- C1 counterexample: a run whose OCR batch fails emits a Result with
`success = true` and the error field present, contradicting the claimed
invariant that a true success flag implies an absent error. -/
theorem c1_success_with_error_counterexample :
    (processHybrid envOCRFail opts0).1.success = true ∧
    (processHybrid envOCRFail opts0).1.error ≠ none := by
  constructor <;> decide

/-- C1 amended: a false success flag always comes with a present error
(hybrid and routed paths alike); a true success flag comes with an
absent error except on the hybrid path when the OCR batch failed, where
the partial result keeps `success = true` and carries the attached
`OCR failed:` message. -/
theorem c1_success_error_invariant (env : HybridEnv)
    (opts : HybridProcessorOptions) (renv : RouterEnv) (reg : Registry)
    (req : RouterReq) :
    ((processHybrid env opts).1.success = false →
      (processHybrid env opts).1.error ≠ none) ∧
    ((processHybrid env opts).1.success = true →
      (processHybrid env opts).1.error = none ∨
      ∃ e, (processHybrid env opts).1.error = some ("OCR failed: ".toList ++ e)) ∧
    ((routerExtract renv reg req).1.success = false →
      (routerExtract renv reg req).1.error ≠ none) := by
  refine ⟨?_, ?_, ?_⟩
  · unfold processHybrid
    cases env.pageCount with
    | error e => intro _; simp
    | ok N =>
      dsimp only
      by_cases hN : N = 0
      · subst hN
        intro _
        simp
      · rw [if_neg hN]
        dsimp only
        intro hfalse
        simp at hfalse
  · unfold processHybrid
    cases env.pageCount with
    | error e => intro htrue; simp at htrue
    | ok N =>
      dsimp only
      by_cases hN : N = 0
      · subst hN
        intro htrue
        simp at htrue
      · rw [if_neg hN]
        dsimp only
        intro _
        split_ifs with hneeds hfull
        · cases runOCRBatch env (plannedPages opts N) with
          | error e => exact Or.inr ⟨e, rfl⟩
          | ok m => exact Or.inl rfl
        · cases runOCRBatch env (needsOCRList env opts N) with
          | error e => exact Or.inr ⟨e, rfl⟩
          | ok m => exact Or.inl rfl
        · exact Or.inl rfl
  · unfold routerExtract
    by_cases hurl : trimSpace req.presignedURL = []
    · rw [if_pos hurl]
      intro _
      simp [errResult]
    · rw [if_neg hurl]
      dsimp only
      generalize (if trimSpace req.fileName = [] then "input.bin".toList
        else trimSpace req.fileName) = fn
      cases renv.download with
      | error e => intro _; simp [errResult]
      | ok dl =>
        dsimp only
        cases resolve reg dl.mimeType (goToLower (filepathExt fn)) with
        | error e => intro _; simp [errResult]
        | ok ex =>
          dsimp only
          cases hrun : ex.run.2 with
          | some e =>
            simp only [hrun]
            split_ifs <;> intro h2 <;> simp_all [errResult]
          | none =>
            simp only [hrun]
            split_ifs <;> intro h2 <;> simp_all [errResult]

/-- Witness for C1 (amended): on a failed page count the emitted result
has a present error, and the OCR-failure partial result matches the
`OCR failed:` shape. -/
theorem c1_success_error_invariant_witness :
    (processHybrid envOCRFail opts0).1.error = none ∨
    ∃ e, (processHybrid envOCRFail opts0).1.error =
      some ("OCR failed: ".toList ++ e) := by
  exact (c1_success_error_invariant envOCRFail opts0 ⟨.error []⟩
    ⟨[], [], []⟩ ⟨[], []⟩).2.1 (by decide)

end Fileproc

namespace Fileproc

/-! ### C2: terminality of emitted method tags. -/

/-- Every worker result carries one of the phase-1 methods and a planned
page number. -/
theorem mem_extractPagesParallel (env : HybridEnv) (pages : List ℤ) (mw : ℤ)
    (pr : PageExtractionResult) (h : pr ∈ extractPagesParallel env pages mw) :
    (pr.method = "text-layer" ∨ pr.method = "needs-ocr") ∧
    pr.pageNumber ∈ pages := by
  unfold extractPagesParallel at h
  rw [List.mapIdx_eq_ofFn, List.mem_ofFn] at h
  obtain ⟨i, hi⟩ := h
  rw [← hi]
  constructor
  · dsimp only
    split_ifs
    · unfold extractSinglePage
      cases env.textForPage (pages.get i) with
      | error e => exact Or.inr rfl
      | ok raw =>
        dsimp only
        split_ifs
        · exact Or.inr rfl
        · exact Or.inl rfl
    · exact Or.inr rfl
  · dsimp only
    split_ifs
    · rw [extractSinglePage_pageNumber]
      exact pages.get_mem i.1 i.2
    · show pages.get i ∈ pages
      exact pages.get_mem i.1 i.2

/-- A flagged phase-1 page contributes its page number to the OCR list. -/
theorem pageNumber_mem_needsOCRList (env : HybridEnv)
    (opts : HybridProcessorOptions) (N : ℕ) (pr : PageExtractionResult)
    (hpr : pr ∈ phase1 env opts N) (hm : ¬ pr.method = "text-layer") :
    pr.pageNumber ∈ needsOCRList env opts N := by
  unfold needsOCRList
  exact List.mem_map_of_mem _ (List.mem_filter.mpr ⟨hpr, by simpa using hm⟩)

/-- Merging a response that covers every still-flagged page leaves only
terminal methods. -/
theorem mergeOCRResults_terminal (env : HybridEnv)
    (ps : List PageExtractionResult) (m : List (ℤ × Str)) (full : Bool)
    (h1 : ∀ pr ∈ ps, pr.method = "text-layer" ∨ pr.method = "needs-ocr")
    (h2 : ∀ pr ∈ ps, pr.method = "needs-ocr" →
      (lookupA m pr.pageNumber).isSome = true) :
    ∀ pr2 ∈ mergeOCRResults env ps m full,
      pr2.method = "text-layer" ∨ pr2.method = "ocr" := by
  intro pr2 hmem
  unfold mergeOCRResults at hmem
  rw [List.mem_map] at hmem
  obtain ⟨pr, hpr, hf⟩ := hmem
  rw [← hf]
  cases hl : lookupA m pr.pageNumber with
  | none =>
    dsimp only
    rcases h1 pr hpr with htl | hneeds
    · exact Or.inl htl
    · have := h2 pr hpr hneeds
      rw [hl] at this
      simp at this
  | some t =>
    dsimp only
    split_ifs with hc
    · exact Or.inr rfl
    · rcases h1 pr hpr with htl | hneeds
      · exact Or.inl htl
      · exfalso
        apply hc
        simp [hneeds]

/-- C2 counterexample: with a failing OCR batch (one of the outcomes the
claim quantifies over) the emitted Pages sequence still carries the
transient `needs-ocr` tag. -/
theorem c2_needs_ocr_emitted_counterexample :
    (processHybrid envOCRFail opts0).1.pages.map (fun p => p.method) =
      ["needs-ocr"] := by
  decide

/-- C2 amended: when the OCR call succeeds and its response covers every
requested page, every emitted PageResult has a terminal method
(`text-layer` or `ocr`); when the OCR batch fails or its response omits a
flagged page, that page keeps the transient `needs-ocr` tag in the
emitted output. -/
theorem c2_terminal_methods (env : HybridEnv) (opts : HybridProcessorOptions)
    (N : ℕ) (hpc : env.pageCount = .ok N)
    (hcov : ∀ L, ocrRequest env opts N = some L →
      ∃ m, runOCRBatch env L = .ok m ∧ ∀ p ∈ L, (lookupA m p).isSome = true) :
    ∀ pr ∈ (processHybrid env opts).1.pages,
      pr.method = "text-layer" ∨ pr.method = "ocr" := by
  unfold processHybrid
  rw [hpc]
  dsimp only
  by_cases hN : N = 0
  · subst hN
    intro pr hpr
    simp at hpr
  · rw [if_neg hN]
    dsimp only
    have hphase : ∀ pr ∈ phase1 env opts N,
        pr.method = "text-layer" ∨ pr.method = "needs-ocr" :=
      fun pr hpr => (mem_extractPagesParallel env _ _ pr hpr).1
    split_ifs with hneeds hfull
    · obtain ⟨m, hm, hcovm⟩ := hcov (plannedPages opts N)
        (by simp [ocrRequest, hneeds, hfull])
      rw [hm]
      apply mergeOCRResults_terminal env _ m _ hphase
      intro pr hpr hneedsm
      exact hcovm pr.pageNumber (mem_extractPagesParallel env _ _ pr hpr).2
    · obtain ⟨m, hm, hcovm⟩ := hcov (needsOCRList env opts N)
        (by simp [ocrRequest, hneeds, hfull])
      rw [hm]
      apply mergeOCRResults_terminal env _ m _ hphase
      intro pr hpr hneedsm
      exact hcovm pr.pageNumber
        (pageNumber_mem_needsOCRList env opts N pr hpr (by simp [hneedsm]))
    · intro pr hpr
      left
      have hnil : needsOCRList env opts N = [] := by
        cases hcontra : needsOCRList env opts N with
        | nil => rfl
        | cons a l => rw [hcontra] at hneeds; simp at hneeds
      unfold needsOCRList at hnil
      rw [List.map_eq_nil] at hnil
      rcases hphase pr hpr with htl | hneedspr
      · exact htl
      · exfalso
        have := List.filter_eq_nil.mp hnil pr hpr
        simp [hneedspr] at this

/-- Witness for C2 (amended): the five-page scenario requests OCR for
exactly page 3, its stub answers it, and only terminal methods are
emitted. -/
theorem c2_terminal_methods_witness :
    ((⟨3, "ocr text".toList, "ocr", 1⟩ : PageExtractionResult)
        ∈ (processHybrid envOneOfFive opts0).1.pages) ∧
    ((⟨3, "ocr text".toList, "ocr", 1⟩ : PageExtractionResult).method = "text-layer"
      ∨ (⟨3, "ocr text".toList, "ocr", 1⟩ : PageExtractionResult).method = "ocr") := by
  refine ⟨by decide, ?_⟩
  refine c2_terminal_methods envOneOfFive opts0 5 (by decide) ?_ _ (by decide)
  intro L hL
  have h3 : ocrRequest envOneOfFive opts0 5 = some [3] := by decide
  rw [h3] at hL
  cases hL
  exact ⟨[(3, "ocr text".toList)], by decide, by decide⟩

end Fileproc

namespace Fileproc

/-! ### C8: registry resolution precedence. -/

theorem lookupA_nil {α β : Type} [DecidableEq α] (k2 : α) :
    lookupA ([] : List (α × β)) k2 = none := rfl

theorem lookupA_cons {α β : Type} [DecidableEq α] (k0 : α) (v0 : β)
    (rest : List (α × β)) (k2 : α) :
    lookupA ((k0, v0) :: rest) k2 = if k0 = k2 then some v0 else lookupA rest k2 := by
  by_cases h : k0 = k2
  · simp [lookupA, h]
  · simp [lookupA, h]

theorem lookupA_upsert {α β : Type} [DecidableEq α] (k : α) (v : β)
    (mp : List (α × β)) (k2 : α) :
    lookupA (upsert k v mp) k2 = if k = k2 then some v else lookupA mp k2 := by
  induction mp with
  | nil => rw [upsert, lookupA_cons, lookupA_nil]
  | cons p rest ih =>
    obtain ⟨k0, v0⟩ := p
    unfold upsert
    by_cases h0 : k0 = k
    · subst h0
      rw [if_pos rfl, lookupA_cons, lookupA_cons]
      split_ifs <;> rfl
    · rw [if_neg h0, lookupA_cons, lookupA_cons, ih]
      by_cases h2 : k0 = k2
      · subst h2
        rw [if_pos rfl, if_neg (fun hc => h0 hc.symm), if_pos rfl]
      · rw [if_neg h2, if_neg h2]

theorem lookupA_regFold (keys : List Str) (e : GoExtractor)
    (acc : List (Str × GoExtractor)) (k : Str) :
    lookupA (keys.foldl
      (fun acc mt =>
        let key := goToLower (trimSpace mt)
        if key = [] then acc else upsert key e acc) acc) k =
    if ¬ k = [] ∧ k ∈ keys.map (fun s => goToLower (trimSpace s))
      then some e else lookupA acc k := by
  induction keys generalizing acc with
  | nil => simp
  | cons mt rest ih =>
    rw [List.foldl_cons]
    dsimp only
    simp only [List.map_cons]
    by_cases hkey : goToLower (trimSpace mt) = []
    · rw [if_pos hkey, ih]
      by_cases hc : ¬ k = [] ∧ k ∈ rest.map (fun s => goToLower (trimSpace s))
      · rw [if_pos hc, if_pos ⟨hc.1, List.mem_cons.mpr (Or.inr hc.2)⟩]
      · rw [if_neg hc, if_neg ?hneg]
        case hneg =>
          rintro ⟨h1, h2⟩
          rcases List.mem_cons.mp h2 with heq | hmem
          · exact h1 (heq.trans hkey)
          · exact hc ⟨h1, hmem⟩
    · rw [if_neg hkey, ih, lookupA_upsert]
      by_cases hc : ¬ k = [] ∧ k ∈ rest.map (fun s => goToLower (trimSpace s))
      · rw [if_pos hc, if_pos ⟨hc.1, List.mem_cons.mpr (Or.inr hc.2)⟩]
      · rw [if_neg hc]
        by_cases heq : goToLower (trimSpace mt) = k
        · rw [if_pos heq, if_pos ⟨fun hknil => hkey (heq.trans hknil),
            List.mem_cons.mpr (Or.inl heq.symm)⟩]
        · rw [if_neg heq, if_neg ?hneg2]
          case hneg2 =>
            rintro ⟨h1, h2⟩
            rcases List.mem_cons.mp h2 with hh | hmem
            · exact heq hh.symm
            · exact hc ⟨h1, hmem⟩

end Fileproc

namespace Fileproc

theorem lookupA_register_ext (r : Registry) (e : GoExtractor) (k : Str) :
    lookupA (register r e).byExtension k =
      if ¬ k = [] ∧ k ∈ e.supportedExtensions.map (fun s => goToLower (trimSpace s))
      then some e else lookupA r.byExtension k := by
  unfold register
  exact lookupA_regFold _ _ _ _

theorem lookupA_register_mime (r : Registry) (e : GoExtractor) (k : Str) :
    lookupA (register r e).byMIME k =
      if ¬ k = [] ∧ k ∈ e.supportedTypes.map (fun s => goToLower (trimSpace s))
      then some e else lookupA r.byMIME k := by
  unfold register
  exact lookupA_regFold _ _ _ _

theorem registerAll_append (l : List GoExtractor) (e : GoExtractor) :
    registerAll (l ++ [e]) = register (registerAll l) e := by
  rw [registerAll, registerAll, List.foldl_append, List.foldl_cons, List.foldl_nil]

theorem lastRegistered_append (regs : List GoExtractor) (e : GoExtractor)
    (p : GoExtractor → List Str) (k : Str) :
    lastRegistered (regs ++ [e]) p k =
      if ¬ k = [] ∧ k ∈ (p e).map (fun s => goToLower (trimSpace s))
      then some e else lastRegistered regs p k := by
  unfold lastRegistered
  rw [List.reverse_append, List.reverse_singleton, List.singleton_append]
  by_cases hc : ¬ k = [] ∧ k ∈ (p e).map (fun s => goToLower (trimSpace s))
  · rw [if_pos hc]
    exact List.find?_cons_of_pos _ (decide_eq_true hc)
  · rw [if_neg hc]
    exact List.find?_cons_of_neg _ (by simpa using hc)

theorem lookupA_registerAll_ext (regs : List GoExtractor) (k : Str) :
    lookupA (registerAll regs).byExtension k =
      lastRegistered regs (fun e => e.supportedExtensions) k := by
  induction regs using List.list_reverse_induction with
  | base => rfl
  | ind l e ih =>
    rw [registerAll_append, lookupA_register_ext, lastRegistered_append, ih]

theorem lookupA_registerAll_mime (regs : List GoExtractor) (k : Str) :
    lookupA (registerAll regs).byMIME k =
      lastRegistered regs (fun e => e.supportedTypes) k := by
  induction regs using List.list_reverse_induction with
  | base => rfl
  | ind l e ih =>
    rw [registerAll_append, lookupA_register_mime, lastRegistered_append, ih]

/-- C8: `Resolve` over the built maps implements exactly the claimed
precedence over the registration sequence: the (lowercased, trimmed)
extension match wins over any MIME registration, then the exact MIME,
then the MIME with trailing `;`-parameters stripped, then the
`text/plain` registration for any `text/` MIME, and otherwise the
`no_extractor` failure — with ties broken toward the latest
registration. -/
theorem c8_resolve_precedence (regs : List GoExtractor) (mime ext : Str) :
    resolve (registerAll regs) mime ext = resolveSpec regs mime ext := by
  unfold resolve resolveSpec
  simp only [lookupA_registerAll_ext, lookupA_registerAll_mime]

end Fileproc

section RegistryChecks
open Fileproc
example :
    (resolve (registerAll
      [⟨"text".toList, ["text/plain".toList], [".txt".toList], 0, (errResult [], none)⟩,
       ⟨"code".toList, [], [".go".toList], 0, (errResult [], none)⟩])
      "text/plain".toList ".go".toList).toOption.map (fun e => e.name) =
      some "code".toList := by decide
example :
    (resolve (registerAll
      [⟨"text".toList, ["text/plain".toList], [".txt".toList], 0, (errResult [], none)⟩])
      "text/markdown".toList ".weird".toList).toOption.map (fun e => e.name) =
      some "text".toList := by decide
example :
    (resolve (registerAll
      [⟨"text".toList, ["text/plain".toList], [".txt".toList], 0, (errResult [], none)⟩])
      "text/plain; charset=utf-8".toList ".weird".toList).toOption.map (fun e => e.name) =
      some "text".toList := by decide
example :
    (resolve (registerAll
      [⟨"text".toList, ["text/plain".toList], [".txt".toList], 0, (errResult [], none)⟩])
      "application/pdf".toList ".bin".toList).toOption = none := by decide
end RegistryChecks

namespace Fileproc

/-! ### C3/C4: correctness of the binary64 rounding primitives. -/

theorem log2Fuel_spec : ∀ (fuel n : ℕ), 1 ≤ n → n < 2 ^ fuel →
    2 ^ log2Fuel fuel n ≤ n ∧ n < 2 ^ (log2Fuel fuel n + 1) := by
  intro fuel
  induction fuel with
  | zero => intro n h1 h2; omega
  | succ f ih =>
    intro n h1 h2
    rw [log2Fuel]
    by_cases hn : n ≤ 1
    · rw [if_pos hn]
      constructor
      · simpa using h1
      · omega
    · rw [if_neg hn]
      have hhalf1 : 1 ≤ n / 2 := by omega
      have hhalf2 : n / 2 < 2 ^ f := by
        rw [pow_succ] at h2
        omega
      obtain ⟨hlo, hhi⟩ := ih (n / 2) hhalf1 hhalf2
      constructor
      · rw [pow_succ]
        omega
      · rw [pow_succ, pow_succ] at *
        omega

theorem nlog2_spec (n : ℕ) (h1 : 1 ≤ n) (h2 : n < 2 ^ 320) :
    2 ^ nlog2 n ≤ n ∧ n < 2 ^ (nlog2 n + 1) :=
  log2Fuel_spec 320 n h1 h2

theorem rheQ_bounds (num den : ℤ) (hden : 0 < den) :
    2 * num - den ≤ 2 * den * rheQ num den ∧
    2 * den * rheQ num den ≤ 2 * num + den := by
  have hdm := Int.ediv_add_emod num den
  have hr0 : 0 ≤ num % den := Int.emod_nonneg num (by omega)
  have hrlt : num % den < den := Int.emod_lt_of_pos num hden
  simp only [rheQ]
  split_ifs with h1 h2 h3 <;> constructor <;> nlinarith [hdm, hr0, hrlt]

theorem rheQ_ge_ediv (num den : ℤ) : num / den ≤ rheQ num den := by
  simp only [rheQ]
  split_ifs <;> omega

end Fileproc

namespace Fileproc

theorem floor_intCast_div (num den : ℤ) (hden : 0 < den) :
    ⌊(num : ℚ) / den⌋ = num / den := by
  obtain ⟨d, rfl⟩ : ∃ d : ℕ, den = (d : ℤ) :=
    ⟨den.toNat, (Int.toNat_of_nonneg hden.le).symm⟩
  push_cast
  exact Rat.floor_intCast_div_natCast num d

theorem fract_intCast_div (num den : ℤ) (hden : 0 < den) :
    Int.fract ((num : ℚ) / den) = ((num % den : ℤ) : ℚ) / den := by
  rw [Int.fract, floor_intCast_div num den hden, Int.emod_def]
  have hd : (den : ℚ) ≠ 0 := by positivity
  push_cast
  field_simp

theorem rheQ_eq_rheRat (num den : ℤ) (hden : 0 < den) :
    rheQ num den = rheRat ((num : ℚ) / den) := by
  have hdq : (0 : ℚ) < (den : ℚ) := by exact_mod_cast hden
  have hc1 : Int.fract ((num : ℚ) / den) < 1/2 ↔ 2 * (num % den) < den := by
    rw [fract_intCast_div num den hden, div_lt_div_iff₀ hdq (by norm_num)]
    constructor
    · intro h
      have h2 : ((2 * (num % den) : ℤ) : ℚ) < ((den : ℤ) : ℚ) := by push_cast; linarith
      exact_mod_cast h2
    · intro h
      have h2 : ((2 * (num % den) : ℤ) : ℚ) < ((den : ℤ) : ℚ) := by exact_mod_cast h
      push_cast at h2
      linarith
  have hc2 : 1/2 < Int.fract ((num : ℚ) / den) ↔ den < 2 * (num % den) := by
    rw [fract_intCast_div num den hden, div_lt_div_iff₀ (by norm_num) hdq]
    constructor
    · intro h
      have h2 : ((den : ℤ) : ℚ) < ((2 * (num % den) : ℤ) : ℚ) := by push_cast; linarith
      exact_mod_cast h2
    · intro h
      have h2 : ((den : ℤ) : ℚ) < ((2 * (num % den) : ℤ) : ℚ) := by exact_mod_cast h
      push_cast at h2
      linarith
  simp only [rheQ, rheRat, hc1, hc2, floor_intCast_div num den hden]

end Fileproc

namespace Fileproc

theorem rheRat_bounds (x : ℚ) :
    x - 1/2 ≤ (rheRat x : ℚ) ∧ (rheRat x : ℚ) ≤ x + 1/2 := by
  have h1 : (⌊x⌋ : ℚ) = x - Int.fract x := by rw [Int.fract]; ring
  have h2 : 0 ≤ Int.fract x := Int.fract_nonneg x
  have h3 : Int.fract x < 1 := Int.fract_lt_one x
  unfold rheRat
  split_ifs with hf1 hf2 hf3 <;> push_cast <;> rw [h1] <;> constructor <;> linarith

theorem rheRat_ge_floor (x : ℚ) : ⌊x⌋ ≤ rheRat x := by
  unfold rheRat
  split_ifs <;> omega

theorem int_le_rheRat (z : ℤ) (x : ℚ) (h : (z : ℚ) ≤ x) : z ≤ rheRat x :=
  le_trans (Int.le_floor.mpr h) (rheRat_ge_floor x)

/-- The scaled pair inside `flsig` denotes `(a/b) * 2^s` exactly. -/
theorem scaled_ratio (a b : ℕ) (s : ℤ) (hb : 0 < b) :
    (((a : ℤ) * (2 ^ s.toNat : ℕ) : ℤ) : ℚ) / (((b : ℤ) * (2 ^ (-s).toNat : ℕ) : ℤ) : ℚ) =
      (a : ℚ) / b * 2 ^ s := by
  have hbq : ((b : ℚ)) ≠ 0 := by positivity
  rcases le_or_lt 0 s with hs | hs
  · have hneg : (-s).toNat = 0 := by omega
    have hpos : ((s.toNat : ℤ)) = s := Int.toNat_of_nonneg hs
    rw [hneg]
    push_cast
    rw [← zpow_natCast (2 : ℚ) s.toNat, hpos]
    field_simp
  · have hpos : s.toNat = 0 := by omega
    have hneg : (((-s).toNat : ℤ)) = -s := Int.toNat_of_nonneg (by omega)
    rw [hpos]
    push_cast
    rw [← zpow_natCast (2 : ℚ) (-s).toNat, hneg]
    rw [zpow_neg]
    field_simp

end Fileproc

namespace Fileproc

theorem zpow_sub_div (u v : ℕ) :
    (2 : ℚ) ^ ((u : ℤ) - v) = ((2 ^ u : ℕ) : ℚ) / ((2 ^ v : ℕ) : ℚ) := by
  rw [zpow_sub₀ (two_ne_zero : (2 : ℚ) ≠ 0)]
  push_cast
  rw [zpow_natCast, zpow_natCast]

set_option maxRecDepth 8000 in
theorem eexp_spec (a b : ℕ) (ha : 1 ≤ a) (hb : 1 ≤ b)
    (ha2 : a < 2 ^ 320) (hb2 : b < 2 ^ 320) :
    (2 : ℚ) ^ eexp a b ≤ (a : ℚ) / b ∧ (a : ℚ) / b < 2 ^ (eexp a b + 1) := by
  obtain ⟨hla1, hla2⟩ := nlog2_spec a ha ha2
  obtain ⟨hlb1, hlb2⟩ := nlog2_spec b hb hb2
  have hbq : (0 : ℚ) < (b : ℚ) := by exact_mod_cast hb
  have hpv : ∀ v : ℕ, (0 : ℚ) < ((2 ^ v : ℕ) : ℚ) := by
    intro v
    positivity
  simp only [eexp]
  split_ifs with hcond
  · have hn : b * 2 ^ nlog2 a ≤ a * 2 ^ nlog2 b := by exact_mod_cast hcond
    constructor
    · rw [zpow_sub_div, div_le_div_iff₀ (hpv (nlog2 b)) hbq]
      have key : 2 ^ nlog2 a * b ≤ a * 2 ^ nlog2 b := by
        rw [mul_comm]
        exact hn
      exact_mod_cast key
    · rw [show (nlog2 a : ℤ) - nlog2 b + 1 = ((nlog2 a + 1 : ℕ) : ℤ) - nlog2 b by
        push_cast; ring]
      rw [zpow_sub_div, div_lt_div_iff₀ hbq (hpv (nlog2 b))]
      have key : a * 2 ^ nlog2 b < 2 ^ (nlog2 a + 1) * b := by nlinarith [hla2, hlb1]
      exact_mod_cast key
  · push_neg at hcond
    have hn : a * 2 ^ nlog2 b < b * 2 ^ nlog2 a := by exact_mod_cast hcond
    constructor
    · rw [show (nlog2 a : ℤ) - nlog2 b - 1 = (nlog2 a : ℤ) - ((nlog2 b + 1 : ℕ) : ℤ) by
        push_cast; ring]
      rw [zpow_sub_div, div_le_div_iff₀ (hpv (nlog2 b + 1)) hbq]
      have key : 2 ^ nlog2 a * b ≤ a * 2 ^ (nlog2 b + 1) := by nlinarith [hla1, hlb2]
      exact_mod_cast key
    · rw [show (nlog2 a : ℤ) - nlog2 b - 1 + 1 = (nlog2 a : ℤ) - nlog2 b by ring]
      rw [zpow_sub_div, div_lt_div_iff₀ hbq (hpv (nlog2 b))]
      have key : a * 2 ^ nlog2 b < 2 ^ nlog2 a * b := by
        rw [mul_comm (2 ^ nlog2 a) b]
        exact hn
      exact_mod_cast key

end Fileproc

namespace Fileproc

theorem flsig_e (a b : ℕ) : (flsig a b).e = eexp a b - 52 := rfl

theorem flsig_m_eq (a b : ℕ) (hb : 1 ≤ b) :
    (flsig a b).m = rheRat ((a : ℚ) / b * 2 ^ (52 - eexp a b)) := by
  have hbz : (0 : ℤ) < (b : ℤ) := by exact_mod_cast hb
  have hD : (0 : ℤ) < (b : ℤ) * ((2 ^ (-(52 - eexp a b)).toNat : ℕ) : ℤ) := by
    have hp : (0 : ℤ) < ((2 ^ (-(52 - eexp a b)).toNat : ℕ) : ℤ) := by positivity
    exact mul_pos hbz hp
  simp only [flsig]
  rw [rheQ_eq_rheRat _ _ hD, scaled_ratio a b _ hb]

/-- A positive rational lies in a unique binade. -/
theorem binade_unique (q : ℚ) (e1 e2 : ℤ) (h1 : (2 : ℚ) ^ e1 ≤ q)
    (h2 : q < 2 ^ (e1 + 1)) (h3 : (2 : ℚ) ^ e2 ≤ q) (h4 : q < 2 ^ (e2 + 1)) :
    e1 = e2 := by
  have hs := zpow_right_strictMono₀ (by norm_num : (1 : ℚ) < 2)
  have l1 : e1 < e2 + 1 := hs.lt_iff_lt.mp (lt_of_le_of_lt h1 h4)
  have l2 : e2 < e1 + 1 := hs.lt_iff_lt.mp (lt_of_le_of_lt h3 h2)
  omega

theorem eexp_eq_of_ratio (a b c d : ℕ) (ha : 1 ≤ a) (hb : 1 ≤ b)
    (hc : 1 ≤ c) (hd : 1 ≤ d) (hA : a < 2 ^ 320) (hB : b < 2 ^ 320)
    (hC : c < 2 ^ 320) (hD : d < 2 ^ 320) (hr : a * d = c * b) :
    eexp a b = eexp c d := by
  have hbq : ((b : ℚ)) ≠ 0 := by
    have h : (0 : ℚ) < (b : ℚ) := by exact_mod_cast hb
    exact h.ne.symm
  have hdq : ((d : ℚ)) ≠ 0 := by
    have h : (0 : ℚ) < (d : ℚ) := by exact_mod_cast hd
    exact h.ne.symm
  have hq : (a : ℚ) / b = (c : ℚ) / d := by
    rw [div_eq_div_iff hbq hdq]
    exact_mod_cast hr
  obtain ⟨h1, h2⟩ := eexp_spec a b ha hb hA hB
  obtain ⟨h3, h4⟩ := eexp_spec c d hc hd hC hD
  rw [hq] at h1 h2
  exact binade_unique ((c : ℚ) / d) (eexp a b) (eexp c d) h1 h2 h3 h4

theorem flsig_eq_of_ratio (a b c d : ℕ) (ha : 1 ≤ a) (hb : 1 ≤ b)
    (hc : 1 ≤ c) (hd : 1 ≤ d) (hA : a < 2 ^ 320) (hB : b < 2 ^ 320)
    (hC : c < 2 ^ 320) (hD : d < 2 ^ 320) (hr : a * d = c * b) :
    flsig a b = flsig c d := by
  have hbq : ((b : ℚ)) ≠ 0 := by
    have h : (0 : ℚ) < (b : ℚ) := by exact_mod_cast hb
    exact h.ne.symm
  have hdq : ((d : ℚ)) ≠ 0 := by
    have h : (0 : ℚ) < (d : ℚ) := by exact_mod_cast hd
    exact h.ne.symm
  have hq : (a : ℚ) / b = (c : ℚ) / d := by
    rw [div_eq_div_iff hbq hdq]
    exact_mod_cast hr
  have he := eexp_eq_of_ratio a b c d ha hb hc hd hA hB hC hD hr
  have hmm : (flsig a b).m = (flsig c d).m := by
    rw [flsig_m_eq a b hb, flsig_m_eq c d hd, hq, he]
  have hee : (flsig a b).e = (flsig c d).e := by
    rw [flsig_e, flsig_e, he]
  cases hx : flsig a b with
  | mk m1 e1 =>
    cases hy : flsig c d with
    | mk m2 e2 =>
      rw [hx, hy] at hmm hee
      dsimp only at hmm hee
      rw [hmm, hee]

end Fileproc

namespace Fileproc

set_option maxRecDepth 8000 in
/-- The rounded significand of `flsig` lies in `[2^52, 2^53]` and the
value is within half an ulp — `2^(e-53)` — of the exact quotient. -/
theorem flsig_spec (a b : ℕ) (ha : 1 ≤ a) (hb : 1 ≤ b)
    (hA : a < 2 ^ 320) (hB : b < 2 ^ 320) :
    2 ^ 52 ≤ (flsig a b).m ∧ (flsig a b).m ≤ 2 ^ 53 ∧
    |dval (flsig a b) - (a : ℚ) / b| ≤ 2 ^ (eexp a b - 53) := by
  obtain ⟨he1, he2⟩ := eexp_spec a b ha hb hA hB
  have hm := flsig_m_eq a b hb
  have h2pos : (0 : ℚ) < 2 ^ ((52 : ℤ) - eexp a b) := zpow_pos (by norm_num) _
  have hR1 : (2 : ℚ) ^ (52 : ℤ) ≤ (a : ℚ) / b * 2 ^ (52 - eexp a b) := by
    have step := mul_le_mul_of_nonneg_right he1 h2pos.le
    calc (2 : ℚ) ^ (52 : ℤ) = 2 ^ eexp a b * 2 ^ (52 - eexp a b) := by
          rw [← zpow_add₀ (two_ne_zero : (2 : ℚ) ≠ 0)]
          congr 1
          ring
      _ ≤ (a : ℚ) / b * 2 ^ (52 - eexp a b) := step
  have hR2 : (a : ℚ) / b * 2 ^ (52 - eexp a b) < (2 : ℚ) ^ (53 : ℤ) := by
    have step := mul_lt_mul_of_pos_right he2 h2pos
    calc (a : ℚ) / b * 2 ^ (52 - eexp a b)
        < 2 ^ (eexp a b + 1) * 2 ^ (52 - eexp a b) := step
      _ = (2 : ℚ) ^ (53 : ℤ) := by
          rw [← zpow_add₀ (two_ne_zero : (2 : ℚ) ≠ 0)]
          congr 1
          ring
  have hrb := rheRat_bounds ((a : ℚ) / b * 2 ^ (52 - eexp a b))
  have hp52 : ((2 ^ 52 : ℤ) : ℚ) = (2 : ℚ) ^ (52 : ℤ) := by norm_num
  have hp53 : ((2 ^ 53 : ℤ) : ℚ) = (2 : ℚ) ^ (53 : ℤ) := by norm_num
  have hml : (2 : ℤ) ^ 52 ≤ (flsig a b).m := by
    rw [hm]
    refine int_le_rheRat _ _ ?_
    rw [hp52]
    exact hR1
  have hmu : (flsig a b).m ≤ 2 ^ 53 := by
    rw [hm]
    have h2 : ((rheRat ((a : ℚ) / b * 2 ^ (52 - eexp a b)) : ℤ) : ℚ)
        < ((2 ^ 53 : ℤ) : ℚ) + 1 := by
      rw [hp53]
      linarith [hrb.2]
    have h3 : rheRat ((a : ℚ) / b * 2 ^ (52 - eexp a b)) < 2 ^ 53 + 1 := by
      exact_mod_cast h2
    omega
  refine ⟨hml, hmu, ?_⟩
  have hval : dval (flsig a b)
      = ((flsig a b).m : ℚ) * 2 ^ (eexp a b - 52) := by
    rw [dval, flsig_e]
  have hq : (a : ℚ) / b
      = ((a : ℚ) / b * 2 ^ (52 - eexp a b)) * 2 ^ (eexp a b - 52) := by
    rw [mul_assoc, ← zpow_add₀ (two_ne_zero : (2 : ℚ) ≠ 0)]
    rw [show (52 : ℤ) - eexp a b + (eexp a b - 52) = 0 by ring, zpow_zero, mul_one]
  rw [hval, hm]
  nth_rewrite 2 [hq]
  rw [← sub_mul, abs_mul,
    abs_of_pos (zpow_pos (by norm_num : (0 : ℚ) < 2) (eexp a b - 52))]
  have habs1 : |((rheRat ((a : ℚ) / b * 2 ^ (52 - eexp a b)) : ℤ) : ℚ)
      - (a : ℚ) / b * 2 ^ (52 - eexp a b)| ≤ 1 / 2 :=
    abs_le.mpr ⟨by linarith [hrb.1], by linarith [hrb.2]⟩
  calc |((rheRat ((a : ℚ) / b * 2 ^ (52 - eexp a b)) : ℤ) : ℚ)
      - (a : ℚ) / b * 2 ^ (52 - eexp a b)| * 2 ^ (eexp a b - 52)
      ≤ 1 / 2 * 2 ^ (eexp a b - 52) :=
        mul_le_mul_of_nonneg_right habs1
          (zpow_pos (by norm_num : (0 : ℚ) < 2) _).le
    _ = 2 ^ (eexp a b - 53) := by
        rw [show (1 : ℚ) / 2 = (2 : ℚ) ^ (-1 : ℤ) by norm_num,
          ← zpow_add₀ (two_ne_zero : (2 : ℚ) ≠ 0)]
        congr 1
        ring

end Fileproc

namespace Fileproc

/-- Go truncation `int(x)` agrees with the rational floor on every
nonnegative exponent and, via Euclidean division, on every negative one. -/
theorem truncF_eq_floor (x : F64) : truncF x = ⌊dval x⌋ := by
  rw [truncF, dval]
  split_ifs with he
  · have hcast : (x.m : ℚ) * 2 ^ x.e
        = ((x.m * ((2 ^ x.e.toNat : ℕ) : ℤ) : ℤ) : ℚ) := by
      push_cast
      congr 1
      rw [← zpow_natCast]
      congr 1
      omega
    rw [hcast, Int.floor_intCast]
  · push_neg at he
    have hx2 : (x.m : ℚ) * 2 ^ x.e
        = ((x.m : ℤ) : ℚ) / (((2 ^ (-x.e).toNat : ℕ) : ℤ) : ℚ) := by
      rw [div_eq_mul_inv]
      congr 1
      rw [show ((((2 ^ (-x.e).toNat : ℕ) : ℤ)) : ℚ)
          = (2 : ℚ) ^ (((-x.e).toNat : ℕ) : ℤ) by push_cast; rw [zpow_natCast]]
      rw [← zpow_neg]
      congr 1
      omega
    rw [hx2, floor_intCast_div _ _ (by positivity)]

end Fileproc

namespace Fileproc

set_option maxRecDepth 8000 in
/-- Multiplying a binary64 with significand in `[2^52, 2^53]` by 100
introduces at most half an ulp of error: `2^(e+6)` absolutely. -/
theorem flMulNat_spec (x : F64) (hm1 : 2 ^ 52 ≤ x.m) (hm2 : x.m ≤ 2 ^ 53) :
    |dval (flMulNat x 100) - 100 * dval x| ≤ 2 ^ (x.e + 6) := by
  have e52 : (2 : ℤ) ^ 52 = 4503599627370496 := by norm_num
  have e53 : (2 : ℤ) ^ 53 = 9007199254740992 := by norm_num
  have hcond : ¬ (x.m ≤ 0 ∨ (100 : ℕ) = 0) := by
    push_neg
    refine ⟨by omega, by norm_num⟩
  have hp1 : (1 : ℤ) ≤ x.m * ((100 : ℕ) : ℤ) := by
    push_cast
    nlinarith [hm1]
  have hp2 : x.m * ((100 : ℕ) : ℤ) < 2 ^ 60 := by
    have e60 : (2 : ℤ) ^ 60 = 1152921504606846976 := by norm_num
    push_cast
    nlinarith [hm2]
  have htn : (((x.m * ((100 : ℕ) : ℤ)).toNat : ℕ) : ℤ) = x.m * ((100 : ℕ) : ℤ) :=
    Int.toNat_of_nonneg (by omega)
  set np : ℕ := (x.m * ((100 : ℕ) : ℤ)).toNat with hnp
  have hnp1 : 1 ≤ np := by omega
  have h60i : (np : ℤ) < 2 ^ 60 := by rw [htn]; exact hp2
  have h60n : np < 2 ^ 60 := by exact_mod_cast h60i
  have hnp2 : np < 2 ^ 320 := lt_trans h60n (by norm_num)
  obtain ⟨hl1, hl2⟩ := nlog2_spec np hnp1 hnp2
  have hnp158 : 2 ^ 58 ≤ np := by
    have h : (2 : ℤ) ^ 58 ≤ (np : ℤ) := by
      rw [htn]
      have e58 : (2 : ℤ) ^ 58 = 288230376151711744 := by norm_num
      push_cast
      nlinarith [hm1]
    exact_mod_cast h
  have hlp58 : 58 ≤ nlog2 np := by
    by_contra hcon
    push_neg at hcon
    have hlt : np < 2 ^ 58 :=
      lt_of_lt_of_le hl2 (Nat.pow_le_pow_right (by norm_num) (by omega))
    exact absurd hlt (not_lt.mpr hnp158)
  have hlp59 : nlog2 np ≤ 59 := by
    by_contra hcon
    push_neg at hcon
    have hge : 2 ^ 60 ≤ np :=
      le_trans (Nat.pow_le_pow_right (by norm_num) (by omega)) hl1
    exact absurd h60n (not_lt.mpr hge)
  simp only [flMulNat]
  rw [if_neg hcond, ← hnp, if_neg (by omega : ¬ nlog2 np ≤ 52)]
  set dd : ℕ := nlog2 np - 52 with hdd
  have hd6 : 6 ≤ dd := by omega
  have hd7 : dd ≤ 7 := by omega
  have hDpos : (0 : ℤ) < ((2 ^ dd : ℕ) : ℤ) := by positivity
  rw [dval]
  dsimp only
  rw [rheQ_eq_rheRat _ _ hDpos]
  have hDq : (((2 ^ dd : ℕ) : ℤ) : ℚ) = (2 : ℚ) ^ (dd : ℤ) := by
    push_cast
    rw [zpow_natCast]
  have h2d : ((2 : ℚ) ^ (dd : ℤ)) ≠ 0 := (zpow_pos (by norm_num) _).ne.symm
  have hQmul : ((x.m * ((100 : ℕ) : ℤ) : ℤ) : ℚ) / (((2 ^ dd : ℕ) : ℤ) : ℚ)
      * 2 ^ (x.e + (dd : ℤ)) = 100 * dval x := by
    rw [dval, zpow_add₀ (two_ne_zero : (2 : ℚ) ≠ 0) x.e (dd : ℤ), hDq]
    push_cast
    rw [div_mul_eq_mul_div]
    rw [div_eq_iff h2d]
    ring
  rw [show x.e + ((nlog2 np : ℤ) - 52) = x.e + (dd : ℤ) by omega]
  rw [← hQmul, ← sub_mul, abs_mul,
    abs_of_pos (zpow_pos (by norm_num : (0 : ℚ) < 2) (x.e + (dd : ℤ)))]
  have hrb := rheRat_bounds
    (((x.m * ((100 : ℕ) : ℤ) : ℤ) : ℚ) / (((2 ^ dd : ℕ) : ℤ) : ℚ))
  have habs1 : |((rheRat (((x.m * ((100 : ℕ) : ℤ) : ℤ) : ℚ)
      / (((2 ^ dd : ℕ) : ℤ) : ℚ)) : ℤ) : ℚ)
      - ((x.m * ((100 : ℕ) : ℤ) : ℤ) : ℚ) / (((2 ^ dd : ℕ) : ℤ) : ℚ)| ≤ 1 / 2 :=
    abs_le.mpr ⟨by linarith [hrb.1], by linarith [hrb.2]⟩
  calc |((rheRat (((x.m * ((100 : ℕ) : ℤ) : ℤ) : ℚ)
      / (((2 ^ dd : ℕ) : ℤ) : ℚ)) : ℤ) : ℚ)
      - ((x.m * ((100 : ℕ) : ℤ) : ℤ) : ℚ) / (((2 ^ dd : ℕ) : ℤ) : ℚ)|
        * 2 ^ (x.e + (dd : ℤ))
      ≤ 1 / 2 * 2 ^ (x.e + (dd : ℤ)) :=
        mul_le_mul_of_nonneg_right habs1
          (zpow_pos (by norm_num : (0 : ℚ) < 2) _).le
    _ ≤ 1 / 2 * 2 ^ (x.e + 7) := by
        have hmono := zpow_le_zpow_right₀ (one_le_two : (1 : ℚ) ≤ 2)
          (show x.e + (dd : ℤ) ≤ x.e + 7 by omega)
        linarith [hmono]
    _ = 2 ^ (x.e + 6) := by
        rw [show (1 : ℚ) / 2 = (2 : ℚ) ^ (-1 : ℤ) by norm_num,
          ← zpow_add₀ (two_ne_zero : (2 : ℚ) ≠ 0)]
        congr 1
        ring

end Fileproc

namespace Fileproc

/-- The exact value of `calculateSavings` over its reachable inputs: the
integer floor of the real percentage, except one below it when the
percentage is exactly 29, 57 or 58 (the three integers whose double
rounding through `float64` truncates low). -/
def savingsModel (t n : ℕ) : ℤ :=
  let k : ℤ := ((100 * t : ℕ) : ℤ) / (n : ℤ)
  if (100 * t) % n = 0 ∧ (k = 29 ∨ k = 57 ∨ k = 58) then k - 1 else k

set_option maxRecDepth 100000 in
theorem savings_k_table : ∀ k : ℕ, k < 101 →
    calculateSavings (k : ℤ) 100
      = (if k = 29 ∨ k = 57 ∨ k = 58 then (k : ℤ) - 1 else (k : ℤ)) := by
  decide

end Fileproc

namespace Fileproc

theorem calculateSavings_nat (t n : ℕ) (ht : 1 ≤ t) (hn : 1 ≤ n) :
    calculateSavings (t : ℤ) (n : ℤ) = truncF (flMulNat (flsig t n) 100) := by
  rw [calculateSavings, if_neg (by omega : ¬ ((n : ℕ) : ℤ) = 0)]
  rw [Int.toNat_natCast, Int.toNat_natCast, flDiv, if_neg (by omega)]

theorem calculateSavings_zero (n : ℕ) : calculateSavings ((0 : ℕ) : ℤ) (n : ℤ) = 0 := by
  rw [calculateSavings]
  split_ifs with h
  · rfl
  · rw [Int.toNat_natCast, Int.toNat_natCast, flDiv,
      if_pos (Or.inl rfl)]
    rw [flMulNat, if_pos (Or.inl (le_refl 0)), truncF]
    rfl

end Fileproc

namespace Fileproc

/-- Divisible case: when `n ∣ 100 t` the computed savings agree with
`calculateSavings k 100` for the integer percentage `k`. -/
theorem calculateSavings_div_case (t n : ℕ) (ht1 : 1 ≤ t) (ht : t ≤ n)
    (hn1 : 1 ≤ n) (hn2 : n ≤ 50000) (hr0 : (100 * t) % n = 0) :
    calculateSavings (t : ℤ) (n : ℤ)
      = calculateSavings (((100 * t) / n : ℕ) : ℤ) ((100 : ℕ) : ℤ) := by
  have hdvd : n ∣ 100 * t := Nat.dvd_of_mod_eq_zero hr0
  have hkn : 100 * t / n * n = 100 * t := Nat.div_mul_cancel hdvd
  have hk1 : 1 ≤ 100 * t / n := by
    rcases Nat.eq_zero_or_pos (100 * t / n) with h0 | h1
    · rw [h0] at hkn
      omega
    · exact h1
  have hk100 : 100 * t / n ≤ 100 := by
    calc 100 * t / n ≤ 100 * n / n := Nat.div_le_div_right (by omega)
      _ = 100 := Nat.mul_div_cancel 100 hn1
  have hfs : flsig t n = flsig (100 * t / n) 100 := by
    refine flsig_eq_of_ratio t n (100 * t / n) 100 ht1 hn1 hk1 (by norm_num)
      (by omega) (by omega) (lt_of_le_of_lt hk100 (by norm_num)) (by norm_num) ?_
    rw [hkn]
    exact mul_comm t 100
  rw [calculateSavings_nat t n ht1 hn1, hfs,
    ← calculateSavings_nat (100 * t / n) 100 hk1 (by norm_num)]

end Fileproc

namespace Fileproc

set_option maxRecDepth 8000 in
/-- Non-divisible case: when `n` does not divide `100 t` the accumulated
rounding error (below `2^(-44)`) cannot cross an integer, so the
computed savings are exactly the real floor. -/
theorem calculateSavings_nondiv_case (t n : ℕ) (ht1 : 1 ≤ t) (ht : t ≤ n)
    (hn1 : 1 ≤ n) (hn2 : n ≤ 50000) (hr1 : 1 ≤ (100 * t) % n) :
    calculateSavings (t : ℤ) (n : ℤ) = (((100 * t) / n : ℕ) : ℤ) := by
  have hA : t < 2 ^ 320 := by omega
  have hB : n < 2 ^ 320 := by omega
  obtain ⟨hm1, hm2, herr1⟩ := flsig_spec t n ht1 hn1 hA hB
  have herr2 := flMulNat_spec (flsig t n) hm1 hm2
  obtain ⟨he1, he2⟩ := eexp_spec t n ht1 hn1 hA hB
  have hnQ : (0 : ℚ) < (n : ℚ) := by exact_mod_cast hn1
  have he0 : eexp t n ≤ 0 := by
    by_contra hcon
    push_neg at hcon
    have h2e : (2 : ℚ) ^ (1 : ℤ) ≤ 2 ^ eexp t n :=
      zpow_le_zpow_right₀ one_le_two hcon
    have hq1 : (t : ℚ) / n ≤ 1 := by
      rw [div_le_one hnQ]
      exact_mod_cast ht
    rw [zpow_one] at h2e
    linarith [he1]
  rw [flsig_e] at herr2
  have hb2 : (2 : ℚ) ^ (eexp t n - 52 + 6) ≤ 2 ^ (-45 : ℤ) :=
    zpow_le_zpow_right₀ one_le_two (by omega)
  have hb1 : (2 : ℚ) ^ (eexp t n - 53) ≤ 2 ^ (-53 : ℤ) :=
    zpow_le_zpow_right₀ one_le_two (by omega)
  have hnum1 : (2 : ℚ) ^ (-45 : ℤ) + 100 * (2 : ℚ) ^ (-53 : ℤ) ≤ 2 ^ (-44 : ℤ) := by
    norm_num
  have htotal : |dval (flMulNat (flsig t n) 100) - 100 * ((t : ℚ) / n)|
      ≤ 2 ^ (-44 : ℤ) := by
    have tri := abs_sub_le (dval (flMulNat (flsig t n) 100))
      (100 * dval (flsig t n)) (100 * ((t : ℚ) / n))
    have h100 : |100 * dval (flsig t n) - 100 * ((t : ℚ) / n)|
        = 100 * |dval (flsig t n) - (t : ℚ) / n| := by
      rw [← mul_sub, abs_mul]
      norm_num
    rw [h100] at tri
    have hscaled : 100 * |dval (flsig t n) - (t : ℚ) / n|
        ≤ 100 * (2 : ℚ) ^ (-53 : ℤ) := by
      have h := le_trans herr1 hb1
      linarith
    have hAB : |dval (flMulNat (flsig t n) 100) - 100 * dval (flsig t n)|
        ≤ (2 : ℚ) ^ (-45 : ℤ) := le_trans herr2 hb2
    calc |dval (flMulNat (flsig t n) 100) - 100 * ((t : ℚ) / n)|
        ≤ |dval (flMulNat (flsig t n) 100) - 100 * dval (flsig t n)|
          + 100 * |dval (flsig t n) - (t : ℚ) / n| := tri
      _ ≤ (2 : ℚ) ^ (-45 : ℤ) + 100 * (2 : ℚ) ^ (-53 : ℤ) := add_le_add hAB hscaled
      _ ≤ 2 ^ (-44 : ℤ) := hnum1
  have hdm := Nat.div_add_mod (100 * t) n
  have hrn : (100 * t) % n < n := Nat.mod_lt _ (by omega)
  have hcast : (100 : ℚ) * (t : ℚ)
      = (n : ℚ) * ((100 * t / n : ℕ) : ℚ) + (((100 * t) % n : ℕ) : ℚ) := by
    exact_mod_cast hdm.symm
  have hqv : 100 * ((t : ℚ) / n)
      = ((100 * t / n : ℕ) : ℚ) + (((100 * t) % n : ℕ) : ℚ) / n := by
    field_simp
    linarith [hcast]
  rw [hqv] at htotal
  obtain ⟨hlo, hhi⟩ := abs_le.mp htotal
  have hrQ1 : (1 : ℚ) ≤ (((100 * t) % n : ℕ) : ℚ) := by exact_mod_cast hr1
  have hrQn : (((100 * t) % n : ℕ) : ℚ) ≤ (n : ℚ) - 1 := by
    have h : (100 * t) % n + 1 ≤ n := hrn
    have h2 : ((((100 * t) % n + 1 : ℕ)) : ℚ) ≤ (n : ℚ) := by exact_mod_cast h
    push_cast at h2
    linarith
  have hfrac_lo : (1 : ℚ) / 50000 ≤ (((100 * t) % n : ℕ) : ℚ) / n := by
    have h1 : (1 : ℚ) / 50000 ≤ 1 / n := by
      apply one_div_le_one_div_of_le hnQ
      exact_mod_cast hn2
    have h2 : (1 : ℚ) / n ≤ (((100 * t) % n : ℕ) : ℚ) / n := by
      gcongr
    linarith
  have hfrac_hi : (((100 * t) % n : ℕ) : ℚ) / n ≤ 1 - 1 / n := by
    rw [div_le_iff₀ hnQ, sub_mul, one_mul, div_mul_cancel₀ _ hnQ.ne.symm]
    exact hrQn
  have h1n_lo : (1 : ℚ) / 50000 ≤ 1 / n := by
    apply one_div_le_one_div_of_le hnQ
    exact_mod_cast hn2
  have hsmall : (2 : ℚ) ^ (-44 : ℤ) < 1 / 50000 := by norm_num
  have hfloor : ⌊dval (flMulNat (flsig t n) 100)⌋ = ((100 * t / n : ℕ) : ℤ) := by
    rw [Int.floor_eq_iff]
    constructor
    · rw [Int.cast_natCast]
      linarith
    · rw [Int.cast_natCast]
      linarith
  rw [calculateSavings_nat t n ht1 hn1, truncF_eq_floor, hfloor]

end Fileproc

namespace Fileproc

/-- `calculateSavings` computes exactly `savingsModel` on every input the
hybrid pipeline can produce. -/
theorem calculateSavings_model (t n : ℕ) (ht : t ≤ n) (hn1 : 1 ≤ n)
    (hn2 : n ≤ 50000) :
    calculateSavings (t : ℤ) (n : ℤ) = savingsModel t n := by
  rcases Nat.eq_zero_or_pos t with ht0 | ht1
  · subst ht0
    rw [calculateSavings_zero]
    simp only [savingsModel, Nat.mul_zero, Nat.zero_mod, Nat.zero_div,
      Nat.cast_zero, Int.zero_ediv]
    norm_num
  · rcases Nat.eq_zero_or_pos ((100 * t) % n) with hr0 | hr1
    · rw [calculateSavings_div_case t n ht1 ht hn1 hn2 hr0]
      have hk100 : 100 * t / n < 101 := by
        have h : 100 * t / n ≤ 100 * n / n := Nat.div_le_div_right (by omega)
        rw [Nat.mul_div_cancel 100 hn1] at h
        omega
      simp only [Nat.cast_ofNat]
      rw [savings_k_table (100 * t / n) hk100]
      simp only [savingsModel]
      rw [← Int.ofNat_ediv]
      by_cases hc : 100 * t / n = 29 ∨ 100 * t / n = 57 ∨ 100 * t / n = 58
      · rw [if_pos hc, if_pos ⟨hr0, by exact_mod_cast hc⟩]
      · rw [if_neg hc, if_neg ?hcneg]
        case hcneg =>
          rintro ⟨h1, h2⟩
          exact hc (by exact_mod_cast h2)
    · rw [calculateSavings_nondiv_case t n ht1 ht hn1 hn2 hr1]
      simp only [savingsModel]
      rw [← Int.ofNat_ediv]
      rw [if_neg ?hcond]
      case hcond =>
        rintro ⟨h1, -⟩
        omega

end Fileproc

namespace Fileproc

theorem processHybrid_count_sum (env : HybridEnv) (opts : HybridProcessorOptions) :
    (processHybrid env opts).1.ocrPages + (processHybrid env opts).1.textLayerPages
      = (((processHybrid env opts).1.pages.length : ℕ) : ℤ) := by
  cases hpc : env.pageCount with
  | error e => simp [processHybrid, hpc]
  | ok N =>
    by_cases hN : N = 0
    · subst hN
      simp [processHybrid, hpc]
    · simp only [processHybrid, hpc]
      rw [if_neg hN]
      dsimp only
      ring

theorem processHybrid_cost_eq (env : HybridEnv) (opts : HybridProcessorOptions) :
    (processHybrid env opts).1.costSavingsPercent
      = calculateSavings (processHybrid env opts).1.textLayerPages
          (processHybrid env opts).1.totalPages := by
  cases hpc : env.pageCount with
  | error e =>
    simp only [processHybrid, hpc]
    simp [calculateSavings]
  | ok N =>
    by_cases hN : N = 0
    · subst hN
      simp [processHybrid, hpc, calculateSavings]
    · simp only [processHybrid, hpc]
      rw [if_neg hN]

end Fileproc

namespace Fileproc

/-- C3 (counterexample): 29 text-layer pages out of 100 yield a computed
savings of 28, while the exact integer floor of `100 * 29 / 100` is 29:
`int(float64(29)/float64(100)*100)` loses one through the two float
roundings. -/
theorem c3_savings_floor_counterexample :
    calculateSavings 29 100 = 28 ∧ (100 * 29 : ℤ) / 100 = 29 := by
  decide

/-- C3 (corrected): in every result of `ProcessHybrid`, `ocrPages +
textLayerPages` equals the number of emitted pages and
`costSavingsPercent` equals `calculateSavings textLayerPages totalPages`;
over the claimed ranges `0 ≤ t ≤ n`, `1 ≤ n ≤ 50000`, `calculateSavings`
returns the exact integer floor of `100·t/n` except when that quotient is
exactly 29, 57 or 58, where it returns one less (`savingsModel`). -/
theorem c3_counts_and_savings (env : HybridEnv) (opts : HybridProcessorOptions)
    (t n : ℕ) (ht : t ≤ n) (hn1 : 1 ≤ n) (hn2 : n ≤ 50000) :
    ((processHybrid env opts).1.ocrPages + (processHybrid env opts).1.textLayerPages
        = (((processHybrid env opts).1.pages.length : ℕ) : ℤ)) ∧
    (processHybrid env opts).1.costSavingsPercent
      = calculateSavings (processHybrid env opts).1.textLayerPages
          (processHybrid env opts).1.totalPages ∧
    calculateSavings (t : ℤ) (n : ℤ) = savingsModel t n :=
  ⟨processHybrid_count_sum env opts, processHybrid_cost_eq env opts,
    calculateSavings_model t n ht hn1 hn2⟩

theorem c3_counts_and_savings_witness :
    ((4 : ℕ) ≤ 5 ∧ (1 : ℕ) ≤ 5 ∧ (5 : ℕ) ≤ 50000) ∧
    (((processHybrid envOneOfFive opts0).1.ocrPages
        + (processHybrid envOneOfFive opts0).1.textLayerPages
        = (((processHybrid envOneOfFive opts0).1.pages.length : ℕ) : ℤ)) ∧
    (processHybrid envOneOfFive opts0).1.costSavingsPercent
      = calculateSavings (processHybrid envOneOfFive opts0).1.textLayerPages
          (processHybrid envOneOfFive opts0).1.totalPages ∧
    calculateSavings ((4 : ℕ) : ℤ) ((5 : ℕ) : ℤ) = savingsModel 4 5) :=
  ⟨by norm_num,
    c3_counts_and_savings envOneOfFive opts0 4 5 (by norm_num) (by norm_num)
      (by norm_num)⟩

end Fileproc

namespace Fileproc

/-- C4 (counterexample): with the binary64 nearest to 0.2 as the trigger
ratio (the value of the Go literal `0.2`, which is strictly greater than
1/5), one flagged page of five is a real fraction strictly below the
ratio, yet the float comparison `float64(1)/float64(5) >= ratio` holds
and the OCR request covers the whole planned list instead of exactly the
flagged page. -/
theorem c4_trigger_counterexample :
    (1 : ℚ) / 5 < dval ⟨7205759403792794, -55⟩ ∧
    needsOCRList envOneOfFive
      { opts0 with ocrTriggerRatio := ⟨7205759403792794, -55⟩ } 5 = [3] ∧
    plannedPages { opts0 with ocrTriggerRatio := ⟨7205759403792794, -55⟩ } 5
      = [1, 2, 3, 4, 5] ∧
    ocrRequest envOneOfFive
      { opts0 with ocrTriggerRatio := ⟨7205759403792794, -55⟩ } 5
      = some [1, 2, 3, 4, 5] := by
  refine ⟨?_, by decide, by decide, by decide⟩
  rw [dval]
  norm_num

/-- C4 (corrected): the OCR request of `ProcessHybrid` is: nothing when
no page is flagged; otherwise the whole planned list exactly when the
binary64 comparison `float64(flagged)/float64(planned) >= ratio` holds,
and exactly the flagged pages otherwise. With the exactly representable
ratio 0.25 and a flagged fraction of exactly one quarter, the comparison
is an equality and the whole planned list is requested (`>=`, not `>`). -/
theorem c4_ocr_request_policy (env : HybridEnv) (opts : HybridProcessorOptions)
    (N : ℕ) :
    (needsOCRList env opts N = [] → ocrRequest env opts N = none) ∧
    (needsOCRList env opts N ≠ [] →
      ocrRequest env opts N = some (if shouldDoFullOCR env opts N
        then plannedPages opts N else needsOCRList env opts N)) ∧
    (opts.ocrTriggerRatio = ⟨1, -2⟩ →
      needsOCRList env opts N ≠ [] →
      (plannedPages opts N).length = 4 * (needsOCRList env opts N).length →
      (needsOCRList env opts N).length < 2 ^ 300 →
      ocrRequest env opts N = some (plannedPages opts N)) := by
  refine ⟨?_, ?_, ?_⟩
  · intro h
    simp only [ocrRequest, h]
    simp
  · intro h
    simp only [ocrRequest]
    rw [if_pos (List.length_pos.mpr h)]
  · intro hrat hne hlen hbound
    have hL1 : 1 ≤ (needsOCRList env opts N).length := List.length_pos.mpr hne
    have hfull : shouldDoFullOCR env opts N = true := by
      rw [shouldDoFullOCR, hrat, hlen]
      have hfd : flDiv (needsOCRList env opts N).length
          (4 * (needsOCRList env opts N).length) = flsig 1 4 := by
        rw [flDiv, if_neg (by omega)]
        exact flsig_eq_of_ratio _ _ 1 4 hL1 (by omega) (by norm_num)
          (by norm_num) (by omega) (by omega) (by norm_num) (by norm_num)
          (by omega)
      rw [hfd]
      decide
    simp only [ocrRequest]
    rw [if_pos (List.length_pos.mpr hne), hfull]
    simp

theorem c4_ocr_request_policy_witness :
    (opts0.ocrTriggerRatio = (⟨1, -2⟩ : F64) ∧
      needsOCRList envOneOfFour opts0 4 ≠ [] ∧
      (plannedPages opts0 4).length = 4 * (needsOCRList envOneOfFour opts0 4).length ∧
      (needsOCRList envOneOfFour opts0 4).length < 2 ^ 300) ∧
    ocrRequest envOneOfFour opts0 4 = some (plannedPages opts0 4) :=
  ⟨⟨by decide, by decide, by decide, by decide⟩,
    (c4_ocr_request_policy envOneOfFour opts0 4).2.2 (by decide) (by decide)
      (by decide) (by decide)⟩

end Fileproc

namespace Fileproc

/-! ### Idempotence of `cleanText`: normal forms

The output of `cleanText` is characterised as a rendered list of lines in
normal form; every pipeline stage is then shown to fix such documents. -/

/-- `List.intercalate [s]`, with structural equations convenient for
induction. -/
def renderSep (s : Char) : List Str → Str
  | [] => []
  | [m] => m
  | m :: rest => m ++ s :: renderSep s rest

theorem renderSep_eq_intercalate (s : Char) :
    ∀ M : List Str, renderSep s M = List.intercalate [s] M
  | [] => by simp [renderSep, List.intercalate]
  | [m] => by simp [renderSep, List.intercalate]
  | m :: m2 :: rest => by
    rw [show renderSep s (m :: m2 :: rest) = m ++ s :: renderSep s (m2 :: rest)
      from rfl]
    rw [renderSep_eq_intercalate s (m2 :: rest)]
    simp [List.intercalate]

theorem renderSep_cons (s : Char) (m : Str) (M : List Str) (h : M ≠ []) :
    renderSep s (m :: M) = m ++ s :: renderSep s M := by
  cases M with
  | nil => exact absurd rfl h
  | cons a t => rfl

theorem renderSep_append_singleton (s : Char) (M : List Str) (m : Str)
    (h : M ≠ []) :
    renderSep s (M ++ [m]) = renderSep s M ++ s :: m := by
  induction M with
  | nil => exact absurd rfl h
  | cons a t ih =>
    cases ht : t with
    | nil => subst ht; rfl
    | cons b u =>
      subst ht
      rw [List.cons_append, renderSep_cons s a ((b :: u) ++ [m]) (by simp),
        renderSep_cons s a (b :: u) (by simp), ih (by simp)]
      simp

/-- A word of a normalized line: nonempty, free of Unicode whitespace and
of the code points `cleanText` drops. -/
def CleanWord (w : Str) : Prop :=
  w ≠ [] ∧ ∀ c ∈ w, goIsSpace c = false ∧ isDropped c = false

/-- A normalized line: optional space indentation followed by clean words
joined by single spaces. -/
def NormLine (m : Str) : Prop :=
  ∃ k ws, ws ≠ [] ∧ (∀ w ∈ ws, CleanWord w) ∧
    m = List.replicate k ' ' ++ joinSp ws

/-- A normalized line without indentation (the form of the first line of
a cleaned document, whose indentation the outer trim removed). -/
def NormLine0 (m : Str) : Prop :=
  ∃ ws, ws ≠ [] ∧ (∀ w ∈ ws, CleanWord w) ∧ m = joinSp ws

/-- The empty-line run-length discipline `capLines` enforces: scanning
with a counter of consecutive empties, every kept empty line keeps the
count at two or below. -/
def runsOK : List Str → ℕ → Bool
  | [], _ => true
  | l :: rest, k =>
    if l = [] then decide (k + 1 ≤ 2) && runsOK rest (k + 1) else runsOK rest 0

theorem runsOK_mono : ∀ (M : List Str) (j k : ℕ), j ≤ k →
    runsOK M k = true → runsOK M j = true
  | [], _, _, _, _ => rfl
  | l :: rest, j, k, hjk, h => by
    rw [runsOK] at h ⊢
    by_cases hl : l = []
    · rw [if_pos hl] at h ⊢
      rw [Bool.and_eq_true, decide_eq_true_eq] at h ⊢
      exact ⟨by omega, runsOK_mono rest (j + 1) (k + 1) (by omega) h.2⟩
    · rw [if_neg hl] at h ⊢
      exact h

theorem runsOK_append_left : ∀ (M N : List Str) (k : ℕ),
    runsOK (M ++ N) k = true → runsOK M k = true
  | [], _, _, _ => rfl
  | l :: rest, N, k, h => by
    rw [List.cons_append, runsOK] at h
    rw [runsOK]
    by_cases hl : l = []
    · rw [if_pos hl] at h ⊢
      rw [Bool.and_eq_true] at h ⊢
      exact ⟨h.1, runsOK_append_left rest N (k + 1) h.2⟩
    · rw [if_neg hl] at h ⊢
      exact runsOK_append_left rest N 0 h

end Fileproc

namespace Fileproc

theorem capLines_mem : ∀ (os : List (Option Str)) (k : ℕ) (x : Str),
    x ∈ capLines os k → x = [] ∨ Option.some x ∈ os
  | [], _, _, h => by cases h
  | none :: rest, k, x, h => by
    rw [capLines] at h
    split_ifs at h with hk
    · rcases List.mem_cons.mp h with h1 | h2
      · exact Or.inl h1
      · rcases capLines_mem rest (k + 1) x h2 with h3 | h4
        · exact Or.inl h3
        · exact Or.inr (List.mem_cons_of_mem _ h4)
    · rcases capLines_mem rest (k + 1) x h with h3 | h4
      · exact Or.inl h3
      · exact Or.inr (List.mem_cons_of_mem _ h4)
  | some l :: rest, k, x, h => by
    rw [capLines] at h
    rcases List.mem_cons.mp h with h1 | h2
    · exact Or.inr (h1 ▸ List.mem_cons_self _ _)
    · rcases capLines_mem rest 0 x h2 with h3 | h4
      · exact Or.inl h3
      · exact Or.inr (List.mem_cons_of_mem _ h4)

theorem capLines_runsOK : ∀ (os : List (Option Str)) (k : ℕ),
    (∀ l, Option.some l ∈ os → l ≠ []) →
    runsOK (capLines os k) k = true
  | [], _, _ => rfl
  | none :: rest, k, h => by
    rw [capLines]
    have hrest : ∀ l, Option.some l ∈ rest → l ≠ [] :=
      fun l hl => h l (List.mem_cons_of_mem _ hl)
    split_ifs with hk
    · rw [runsOK, if_pos rfl, Bool.and_eq_true, decide_eq_true_eq]
      exact ⟨hk, capLines_runsOK rest (k + 1) hrest⟩
    · exact runsOK_mono _ k (k + 1) (by omega) (capLines_runsOK rest (k + 1) hrest)
  | some l :: rest, k, h => by
    rw [capLines, runsOK, if_neg (h l (List.mem_cons_self _ _))]
    exact capLines_runsOK rest 0 fun x hx => h x (List.mem_cons_of_mem _ hx)

theorem processLine_nil : processLine [] = none := rfl

theorem capLines_fixed : ∀ (M : List Str) (k : ℕ),
    (∀ m ∈ M, m ≠ [] → processLine m = some m) →
    runsOK M k = true →
    capLines (M.map processLine) k = M
  | [], _, _, _ => rfl
  | m :: rest, k, hfix, hruns => by
    rw [runsOK] at hruns
    rw [List.map_cons]
    by_cases hm : m = []
    · subst hm
      rw [if_pos rfl, Bool.and_eq_true, decide_eq_true_eq] at hruns
      rw [processLine_nil, capLines, if_pos hruns.1]
      rw [capLines_fixed rest (k + 1)
        (fun x hx => hfix x (List.mem_cons_of_mem _ hx)) hruns.2]
    · rw [if_neg hm] at hruns
      rw [hfix m (List.mem_cons_self _ _) hm, capLines]
      rw [capLines_fixed rest 0
        (fun x hx => hfix x (List.mem_cons_of_mem _ hx)) hruns]

end Fileproc

namespace Fileproc

theorem splitOnP_mem_subset {p : Char → Bool} : ∀ (l m : Str),
    m ∈ l.splitOnP p → ∀ c ∈ m, c ∈ l ∧ p c = false
  | [], m, hm, c, hc => by
    rw [List.splitOnP_nil] at hm
    rcases List.mem_singleton.mp hm with rfl
    cases hc
  | a :: as, m, hm, c, hc => by
    rw [List.splitOnP_cons] at hm
    split_ifs at hm with hpa
    · rcases List.mem_cons.mp hm with rfl | hm2
      · cases hc
      · obtain ⟨h1, h2⟩ := splitOnP_mem_subset as m hm2 c hc
        exact ⟨List.mem_cons_of_mem _ h1, h2⟩
    · have hpaf : p a = false := by
        cases h : p a
        · rfl
        · exact absurd h hpa
      cases hS : as.splitOnP p with
      | nil => exact absurd hS (List.splitOnP_ne_nil p as)
      | cons h t =>
        rw [hS, List.modifyHead_cons] at hm
        rcases List.mem_cons.mp hm with rfl | hm2
        · rcases List.mem_cons.mp hc with rfl | hc2
          · exact ⟨List.mem_cons_self _ _, hpaf⟩
          · obtain ⟨h1, h2⟩ := splitOnP_mem_subset as h
              (hS ▸ List.mem_cons_self _ _) c hc2
            exact ⟨List.mem_cons_of_mem _ h1, h2⟩
        · obtain ⟨h1, h2⟩ := splitOnP_mem_subset as m
            (hS ▸ List.mem_cons_of_mem _ hm2) c hc
          exact ⟨List.mem_cons_of_mem _ h1, h2⟩

theorem splitOnP_covers {p : Char → Bool} : ∀ (l : Str) (c : Char), c ∈ l →
    p c = false → ∃ m ∈ l.splitOnP p, c ∈ m
  | [], c, hc, _ => by cases hc
  | a :: as, c, hc, hpc => by
    rw [List.splitOnP_cons]
    by_cases hpa : p a = true
    · rw [if_pos hpa]
      rcases List.mem_cons.mp hc with rfl | hc2
      · rw [hpa] at hpc
        cases hpc
      · obtain ⟨m, hm1, hm2⟩ := splitOnP_covers as c hc2 hpc
        exact ⟨m, List.mem_cons_of_mem _ hm1, hm2⟩
    · rw [if_neg hpa]
      cases hS : as.splitOnP p with
      | nil => exact absurd hS (List.splitOnP_ne_nil p as)
      | cons h t =>
        rw [List.modifyHead_cons]
        rcases List.mem_cons.mp hc with rfl | hc2
        · exact ⟨c :: h, List.mem_cons_self _ _, List.mem_cons_self _ _⟩
        · obtain ⟨m, hm1, hm2⟩ := splitOnP_covers as c hc2 hpc
          rcases List.mem_cons.mp (hS ▸ hm1) with rfl | hm3
          · exact ⟨a :: m, List.mem_cons_self _ _, List.mem_cons_of_mem _ hm2⟩
          · exact ⟨m, List.mem_cons_of_mem _ hm3, hm2⟩

theorem mem_fields (l w : Str) (h : w ∈ fields l) :
    w ≠ [] ∧ ∀ c ∈ w, goIsSpace c = false ∧ c ∈ l := by
  rw [fields] at h
  obtain ⟨h1, h2⟩ := List.mem_filter.mp h
  refine ⟨by simpa using h2, fun c hc => ?_⟩
  obtain ⟨hm1, hm2⟩ := splitOnP_mem_subset l w h1 c hc
  exact ⟨hm2, hm1⟩

theorem fields_ne_nil (l : Str) (c : Char) (hc : c ∈ l)
    (hp : goIsSpace c = false) : fields l ≠ [] := by
  obtain ⟨m, hm1, hm2⟩ := splitOnP_covers l c hc hp
  have hmne : m ≠ [] := List.ne_nil_of_mem hm2
  have : m ∈ fields l := by
    rw [fields]
    exact List.mem_filter.mpr ⟨hm1, by simpa using hmne⟩
  exact List.ne_nil_of_mem this

theorem joinSp_eq_renderSep (ws : List Str) : joinSp ws = renderSep ' ' ws :=
  (renderSep_eq_intercalate ' ' ws).symm

theorem splitOnP_joinSp : ∀ (ws : List Str), ws ≠ [] →
    (∀ w ∈ ws, w ≠ [] ∧ ∀ c ∈ w, goIsSpace c = false) →
    (joinSp ws).splitOnP goIsSpace = ws
  | [], h, _ => absurd rfl h
  | [w], _, hw => by
    rw [joinSp_eq_renderSep]
    exact List.splitOnP_eq_single _ _
      (fun c hc => by rw [(hw w (List.mem_singleton.mpr rfl)).2 c hc]; simp)
  | w :: w2 :: rest, _, hw => by
    rw [joinSp_eq_renderSep, renderSep_cons ' ' w (w2 :: rest) (by simp)]
    have hall : ∀ x ∈ w, ¬ goIsSpace x = true := fun c hc => by
      rw [(hw w (List.mem_cons_self _ _)).2 c hc]
      simp
    rw [List.splitOnP_first goIsSpace w hall ' ' (by decide) (renderSep ' ' (w2 :: rest))]
    rw [show renderSep ' ' (w2 :: rest) = joinSp (w2 :: rest) from
      (joinSp_eq_renderSep _).symm]
    rw [splitOnP_joinSp (w2 :: rest) (by simp)
      (fun x hx => hw x (List.mem_cons_of_mem _ hx))]

theorem fields_joinSp (ws : List Str) (hne : ws ≠ [])
    (hw : ∀ w ∈ ws, CleanWord w) : fields (joinSp ws) = ws := by
  rw [fields, splitOnP_joinSp ws hne
    (fun w hwm => ⟨(hw w hwm).1, fun c hc => ((hw w hwm).2 c hc).1⟩)]
  exact List.filter_eq_self.mpr
    (fun w hwm => by simpa using (hw w hwm).1)

end Fileproc

namespace Fileproc

theorem dropWhile_replicate_sp (p : Char → Bool) (hp : p ' ' = true) :
    ∀ (k : ℕ) (z : Str),
      List.dropWhile p (List.replicate k ' ' ++ z) = List.dropWhile p z
  | 0, z => by simp
  | k + 1, z => by
    rw [List.replicate_succ, List.cons_append, List.dropWhile_cons_of_pos hp]
    exact dropWhile_replicate_sp p hp k z

theorem dropWhile_head_clean (p : Char → Bool) (w z : Str) (hw : w ≠ [])
    (hall : ∀ c ∈ w, p c = false) :
    List.dropWhile p (w ++ z) = w ++ z := by
  cases w with
  | nil => exact absurd rfl hw
  | cons c w2 =>
    rw [List.cons_append, List.dropWhile_cons_of_neg]
    rw [hall c (List.mem_cons_self _ _)]
    simp

theorem joinSp_decomp_first (ws : List Str) (hne : ws ≠ []) :
    ∃ w z, joinSp ws = w ++ z ∧ w ∈ ws := by
  cases ws with
  | nil => exact absurd rfl hne
  | cons w rest =>
    cases rest with
    | nil =>
      exact ⟨w, [], by rw [joinSp_eq_renderSep, renderSep, List.append_nil],
        List.mem_singleton.mpr rfl⟩
    | cons w2 r2 =>
      exact ⟨w, ' ' :: renderSep ' ' (w2 :: r2),
        by rw [joinSp_eq_renderSep, renderSep_cons ' ' w (w2 :: r2) (by simp)],
        List.mem_cons_self _ _⟩

theorem joinSp_decomp_last : ∀ (ws : List Str), ws ≠ [] →
    ∃ z w, joinSp ws = z ++ w ∧ w ∈ ws
  | [], h => absurd rfl h
  | [w], _ =>
    ⟨[], w, by rw [joinSp_eq_renderSep, renderSep, List.nil_append],
      List.mem_singleton.mpr rfl⟩
  | w :: w2 :: rest, _ => by
    obtain ⟨z, wl, hz, hmem⟩ := joinSp_decomp_last (w2 :: rest) (by simp)
    refine ⟨w ++ ' ' :: z, wl, ?_, List.mem_cons_of_mem _ hmem⟩
    rw [joinSp_eq_renderSep, renderSep_cons ' ' w (w2 :: rest) (by simp),
      ← joinSp_eq_renderSep, hz]
    simp

theorem trimLeft_join (p : Char → Bool) (hp : p ' ' = true) (k : ℕ)
    (ws : List Str) (hne : ws ≠ [])
    (hw : ∀ w ∈ ws, w ≠ [] ∧ ∀ c ∈ w, p c = false) :
    List.dropWhile p (List.replicate k ' ' ++ joinSp ws) = joinSp ws := by
  rw [dropWhile_replicate_sp p hp k]
  obtain ⟨w, z, heq, hmem⟩ := joinSp_decomp_first ws hne
  rw [heq]
  exact dropWhile_head_clean p w z (hw w hmem).1 (fun c hc => (hw w hmem).2 c hc)

theorem trimRight_join (p : Char → Bool) (z w : Str) (hwne : w ≠ [])
    (hall : ∀ c ∈ w, p c = false) :
    (List.dropWhile p (z ++ w).reverse).reverse = z ++ w := by
  rw [List.reverse_append]
  rw [dropWhile_head_clean p w.reverse z.reverse
    (by simpa using hwne) (fun c hc => hall c (List.mem_reverse.mp hc))]
  rw [← List.reverse_append, List.reverse_reverse]

theorem isST_of_space (c : Char) (h : goIsSpace c = false) : isST c = false := by
  cases hst : isST c with
  | false => rfl
  | true =>
    exfalso
    rw [isST] at hst
    simp only [Bool.or_eq_true, decide_eq_true_eq] at hst
    rcases hst with rfl | rfl
    · exact absurd h (by decide)
    · exact absurd h (by decide)

theorem normLine_trims (k : ℕ) (ws : List Str) (hne : ws ≠ [])
    (hw : ∀ w ∈ ws, CleanWord w) :
    trimRightST (List.replicate k ' ' ++ joinSp ws)
        = List.replicate k ' ' ++ joinSp ws ∧
    trimSpace (List.replicate k ' ' ++ joinSp ws) = joinSp ws ∧
    trimLeftST (List.replicate k ' ' ++ joinSp ws) = joinSp ws ∧
    joinSp ws ≠ [] := by
  have hwsp : ∀ w ∈ ws, w ≠ [] ∧ ∀ c ∈ w, goIsSpace c = false :=
    fun w hm => ⟨(hw w hm).1, fun c hc => ((hw w hm).2 c hc).1⟩
  have hwst : ∀ w ∈ ws, w ≠ [] ∧ ∀ c ∈ w, isST c = false :=
    fun w hm => ⟨(hw w hm).1, fun c hc => isST_of_space c (((hw w hm).2 c hc).1)⟩
  obtain ⟨z, wl, hzl, hlmem⟩ := joinSp_decomp_last ws hne
  obtain ⟨wf, zf, hf, hfmem⟩ := joinSp_decomp_first ws hne
  have hjne : joinSp ws ≠ [] := by
    rw [hf]
    intro hcon
    exact (hwsp wf hfmem).1 (List.append_eq_nil.mp hcon).1
  refine ⟨?_, ?_, ?_, hjne⟩
  · rw [trimRightST]
    rw [show List.replicate k ' ' ++ joinSp ws = (List.replicate k ' ' ++ z) ++ wl
      by rw [hzl, List.append_assoc]]
    exact trimRight_join isST _ wl (hwst wl hlmem).1
      (fun c hc => (hwst wl hlmem).2 c hc)
  · rw [trimSpace]
    rw [trimLeft_join goIsSpace (by decide) k ws hne hwsp]
    rw [show joinSp ws = z ++ wl from hzl]
    exact trimRight_join goIsSpace z wl (hwsp wl hlmem).1
      (fun c hc => (hwsp wl hlmem).2 c hc)
  · rw [trimLeftST]
    exact trimLeft_join isST (by decide) k ws hne hwst

/-- A normalized line is a fixed point of the per-line cleaning. -/
theorem processLine_norm (m : Str) (h : NormLine m) : processLine m = some m := by
  obtain ⟨k, ws, hne, hw, rfl⟩ := h
  obtain ⟨ha, hb, hc, hjne⟩ := normLine_trims k ws hne hw
  simp only [processLine, ha, hb, hc]
  rw [if_neg hjne, fields_joinSp ws hne hw]
  have hlen : (List.replicate k ' ' ++ joinSp ws).length - (joinSp ws).length
      = k := by
    simp
  rw [hlen]
  by_cases hk : 0 < k
  · rw [if_pos hk]
  · rw [if_neg hk]
    have hk0 : k = 0 := by omega
    subst hk0
    simp

end Fileproc

namespace Fileproc

theorem replCRLF_cons (c : Char) (rest : Str) (hc : c ≠ '\r') :
    replCRLF (c :: rest) = c :: replCRLF rest := by
  rw [replCRLF.eq_def]
  split
  · rename_i heq
    cases heq
  · rename_i r heq
    rw [List.cons.injEq] at heq
    exact absurd heq.1 hc
  · rename_i c2 r2 heq
    rw [List.cons.injEq] at heq
    rw [heq.1, heq.2]

theorem replCRLF_id (l : Str) (h : ∀ c ∈ l, c ≠ '\r') : replCRLF l = l := by
  induction l with
  | nil => rfl
  | cons c rest ih =>
    rw [replCRLF_cons c rest (h c (List.mem_cons_self _ _))]
    rw [ih (fun x hx => h x (List.mem_cons_of_mem _ hx))]

theorem replCR_id (l : Str) (h : ∀ c ∈ l, c ≠ '\r') : replCR l = l := by
  induction l with
  | nil => rfl
  | cons c rest ih =>
    simp only [replCR, List.map_cons]
    rw [if_neg (h c (List.mem_cons_self _ _))]
    simp only [replCR] at ih
    rw [ih (fun x hx => h x (List.mem_cons_of_mem _ hx))]

theorem dropInvis_id (l : Str)
    (h : ∀ c ∈ l, isDropped c = false ∧ c.toNat ≠ 0xA0) : dropInvis l = l := by
  induction l with
  | nil => rfl
  | cons c rest ih =>
    have h1 := (h c (List.mem_cons_self _ _)).1
    have h2 := (h c (List.mem_cons_self _ _)).2
    simp only [dropInvis, List.filterMap_cons]
    rw [if_neg (by rw [h1]; simp), if_neg h2]
    simp only [dropInvis] at ih
    rw [ih (fun x hx => h x (List.mem_cons_of_mem _ hx))]

theorem dropInvis_clean (l : Str) : ∀ c ∈ dropInvis l, isDropped c = false := by
  intro c hc
  rw [dropInvis] at hc
  obtain ⟨a, ha, hfa⟩ := List.mem_filterMap.mp hc
  by_cases h1 : isDropped a = true
  · rw [if_pos h1] at hfa
    cases hfa
  · rw [if_neg h1] at hfa
    by_cases h2 : a.toNat = 0xA0
    · rw [if_pos h2] at hfa
      injection hfa with hsp
      subst hsp
      decide
    · rw [if_neg h2] at hfa
      injection hfa with hsp
      subst hsp
      simpa using h1

theorem renderSep_mem (s : Char) : ∀ (M : List Str) (c : Char),
    c ∈ renderSep s M → c = s ∨ ∃ m ∈ M, c ∈ m
  | [], c, hc => by cases hc
  | [m], c, hc => Or.inr ⟨m, List.mem_singleton.mpr rfl, hc⟩
  | m :: m2 :: rest, c, hc => by
    rw [renderSep_cons s m (m2 :: rest) (by simp)] at hc
    rcases List.mem_append.mp hc with h1 | h2
    · exact Or.inr ⟨m, List.mem_cons_self _ _, h1⟩
    · rcases List.mem_cons.mp h2 with rfl | h3
      · exact Or.inl rfl
      · rcases renderSep_mem s (m2 :: rest) c h3 with h4 | ⟨mx, hmx, hcx⟩
        · exact Or.inl h4
        · exact Or.inr ⟨mx, List.mem_cons_of_mem _ hmx, hcx⟩

theorem goodDoc_chars (M : List Str) (hM : ∀ m ∈ M, m = [] ∨ NormLine m) :
    ∀ c ∈ renderSep '\n' M,
      c = '\n' ∨ c = ' ' ∨ (goIsSpace c = false ∧ isDropped c = false) := by
  intro c hc
  rcases renderSep_mem '\n' M c hc with rfl | ⟨m, hm, hcm⟩
  · exact Or.inl rfl
  · rcases hM m hm with rfl | hnorm
    · cases hcm
    · obtain ⟨k, ws, hne, hw, rfl⟩ := hnorm
      rcases List.mem_append.mp hcm with h1 | h2
      · exact Or.inr (Or.inl (List.eq_of_mem_replicate h1))
      · rw [joinSp_eq_renderSep] at h2
        rcases renderSep_mem ' ' ws c h2 with rfl | ⟨w, hwm, hcw⟩
        · exact Or.inr (Or.inl rfl)
        · exact Or.inr (Or.inr ((hw w hwm).2 c hcw))

theorem stages_id_of_good (M : List Str)
    (hM : ∀ m ∈ M, m = [] ∨ NormLine m) :
    dropInvis (replCR (replCRLF (renderSep '\n' M))) = renderSep '\n' M := by
  have hch := goodDoc_chars M hM
  have hnoCR : ∀ c ∈ renderSep '\n' M, c ≠ '\r' := by
    intro c hc
    rcases hch c hc with rfl | rfl | ⟨hsp, h2⟩
    · decide
    · decide
    · intro hcon
      subst hcon
      exact absurd hsp (by decide)
  rw [replCRLF_id _ hnoCR, replCR_id _ hnoCR]
  apply dropInvis_id
  intro c hc
  rcases hch c hc with rfl | rfl | ⟨hsp, hdr⟩
  · exact ⟨by decide, by decide⟩
  · exact ⟨by decide, by decide⟩
  · refine ⟨hdr, ?_⟩
    intro hcon
    have hT : goIsSpace c = true := by
      rw [goIsSpace]
      simp [hcon]
    rw [hsp] at hT
    exact absurd hT (by decide)

end Fileproc

namespace Fileproc

theorem splitOn_render (M : List Str) (hMne : M ≠ [])
    (hM : ∀ m ∈ M, m = [] ∨ NormLine m) :
    (renderSep '\n' M).splitOn '\n' = M := by
  rw [renderSep_eq_intercalate]
  refine List.splitOn_intercalate M '\n' ?_ hMne
  intro m hm hcon
  rcases hM m hm with rfl | hnorm
  · cases hcon
  · obtain ⟨k, ws, hne, hw, rfl⟩ := hnorm
    rcases List.mem_append.mp hcon with h1 | h2
    · exact absurd (List.eq_of_mem_replicate h1) (by decide)
    · rw [joinSp_eq_renderSep] at h2
      rcases renderSep_mem ' ' ws _ h2 with h3 | ⟨w, hwm, hcw⟩
      · exact absurd h3 (by decide)
      · exact absurd ((hw w hwm).2 _ hcw).1 (by decide)

theorem render_decomp_first (m0 : Str) (rest : List Str) (h0 : NormLine0 m0) :
    ∃ w z, renderSep '\n' (m0 :: rest) = w ++ z ∧ w ≠ [] ∧
      ∀ c ∈ w, goIsSpace c = false := by
  obtain ⟨ws, hne, hw, rfl⟩ := h0
  obtain ⟨wf, zf, hf, hfm⟩ := joinSp_decomp_first ws hne
  cases rest with
  | nil =>
    refine ⟨wf, zf, ?_, (hw wf hfm).1, fun c hc => ((hw wf hfm).2 c hc).1⟩
    rw [renderSep]
    exact hf
  | cons r1 r2 =>
    refine ⟨wf, zf ++ '\n' :: renderSep '\n' (r1 :: r2), ?_, (hw wf hfm).1,
      fun c hc => ((hw wf hfm).2 c hc).1⟩
    rw [renderSep_cons '\n' _ (r1 :: r2) (by simp), hf, List.append_assoc]

theorem render_decomp_last (M : List Str) (hne : M ≠ [])
    (hmem : ∀ m ∈ M, m = [] ∨ NormLine m) (hlast : M.getLast? ≠ some []) :
    ∃ z w, renderSep '\n' M = z ++ w ∧ w ≠ [] ∧
      ∀ c ∈ w, goIsSpace c = false := by
  rcases List.eq_nil_or_concat M with rfl | ⟨M2, a, heq⟩
  · exact absurd rfl hne
  · rw [List.concat_eq_append] at heq
    subst heq
    have hga : (M2 ++ [a]).getLast? = some a := by simp
    have hane : a ≠ [] := by
      intro hcon
      subst hcon
      exact hlast hga
    have hanorm : NormLine a := by
      rcases hmem a (by simp) with h1 | h2
      · exact absurd h1 hane
      · exact h2
    obtain ⟨k, ws, hwne, hw, rfl⟩ := hanorm
    obtain ⟨z, wl, hzl, hlm⟩ := joinSp_decomp_last ws hwne
    cases M2 with
    | nil =>
      refine ⟨List.replicate k ' ' ++ z, wl, ?_, (hw wl hlm).1,
        fun c hc => ((hw wl hlm).2 c hc).1⟩
      rw [List.nil_append, renderSep, hzl, List.append_assoc]
    | cons b bs =>
      refine ⟨(renderSep '\n' (b :: bs) ++ ['\n']) ++ (List.replicate k ' ' ++ z),
        wl, ?_, (hw wl hlm).1, fun c hc => ((hw wl hlm).2 c hc).1⟩
      rw [renderSep_append_singleton '\n' (b :: bs) _ (by simp), hzl]
      simp [List.append_assoc]

theorem trimSpace_render (m0 : Str) (rest : List Str) (h0 : NormLine0 m0)
    (hmem : ∀ m ∈ m0 :: rest, m = [] ∨ NormLine m)
    (hlast : (m0 :: rest).getLast? ≠ some []) :
    trimSpace (renderSep '\n' (m0 :: rest)) = renderSep '\n' (m0 :: rest) := by
  obtain ⟨z, w, hzw, hwne, hwcl⟩ :=
    render_decomp_last (m0 :: rest) (by simp) hmem hlast
  obtain ⟨wf, zf, hfw, hfne, hfcl⟩ := render_decomp_first m0 rest h0
  rw [trimSpace, hfw, dropWhile_head_clean goIsSpace wf zf hfne hfcl, ← hfw,
    hzw]
  exact trimRight_join goIsSpace z w hwne hwcl

/-- A rendered normal-form document is a fixed point of `cleanText`. -/
theorem cleanText_fixed (M : List Str)
    (hmem : ∀ m ∈ M, m = [] ∨ NormLine m)
    (hruns : runsOK M 0 = true)
    (h0 : ∀ m rest, M = m :: rest → NormLine0 m)
    (hlast : M.getLast? ≠ some []) :
    cleanText (renderSep '\n' M) = renderSep '\n' M := by
  cases M with
  | nil => decide
  | cons m0 rest =>
    have hfix : ∀ m ∈ m0 :: rest, m ≠ [] → processLine m = some m := by
      intro m hm hmne
      rcases hmem m hm with h1 | h2
      · exact absurd h1 hmne
      · exact processLine_norm m h2
    simp only [cleanText]
    rw [stages_id_of_good _ hmem, splitOn_render _ (by simp) hmem,
      capLines_fixed _ 0 hfix hruns, ← renderSep_eq_intercalate]
    exact trimSpace_render m0 rest (h0 m0 rest rfl) hmem hlast

end Fileproc

namespace Fileproc

theorem dropWhileHeadFalse {α : Type} (p : α → Bool) : ∀ (l : List α) (c : α)
    (t : List α), List.dropWhile p l = c :: t → p c = false
  | [], c, t, h => by cases h
  | a :: rest, c, t, h => by
    rw [List.dropWhile_cons] at h
    split_ifs at h with hpa
    · exact dropWhileHeadFalse p rest c t h
    · rw [List.cons.injEq] at h
      rw [← h.1]
      cases hb : p a with
      | false => rfl
      | true => exact absurd hb hpa

theorem trimSpace_head (z : Str) (c : Char) (t : Str) (h : trimSpace z = c :: t) :
    goIsSpace c = false := by
  rw [trimSpace] at h
  cases hA : List.dropWhile goIsSpace z with
  | nil =>
    rw [hA] at h
    simp at h
  | cons a A2 =>
    have hpa : goIsSpace a = false := dropWhileHeadFalse _ z a A2 hA
    rw [hA, List.reverse_cons, List.dropWhile_append] at h
    split_ifs at h with hemp
    · rw [List.dropWhile_cons_of_neg (by rw [hpa]; simp)] at h
      simp at h
      rw [← h.1]
      exact hpa
    · rw [List.reverse_append] at h
      simp at h
      rw [← h.1]
      exact hpa

theorem trimRightST_subset (l : Str) : ∀ c ∈ trimRightST l, c ∈ l := by
  intro c hc
  rw [trimRightST, List.mem_reverse] at hc
  exact List.mem_reverse.mp ((List.dropWhile_sublist _).subset hc)

theorem trimSpace_subset (l : Str) : ∀ c ∈ trimSpace l, c ∈ l := by
  intro c hc
  rw [trimSpace, List.mem_reverse] at hc
  have h1 := (List.dropWhile_sublist _).subset hc
  rw [List.mem_reverse] at h1
  exact (List.dropWhile_sublist _).subset h1

theorem normLine_ne_nil (m : Str) (h : NormLine m) : m ≠ [] := by
  obtain ⟨k, ws, hne, hw, rfl⟩ := h
  have hj := (normLine_trims k ws hne hw).2.2.2
  intro hcon
  exact hj (List.append_eq_nil.mp hcon).2

theorem processLine_words (l : Str) (hcl : ∀ c ∈ l, isDropped c = false)
    (hts : ¬ trimSpace (trimRightST l) = []) :
    fields (trimSpace (trimRightST l)) ≠ [] ∧
    ∀ w ∈ fields (trimSpace (trimRightST l)), CleanWord w := by
  constructor
  · cases hct : trimSpace (trimRightST l) with
    | nil => exact absurd hct hts
    | cons c0 t0 =>
      have hc0 : goIsSpace c0 = false := trimSpace_head _ c0 t0 hct
      exact fields_ne_nil (c0 :: t0) c0 (List.mem_cons_self _ _) hc0
  · intro w hwm
    obtain ⟨hwne, hwall⟩ := mem_fields _ w hwm
    refine ⟨hwne, fun c hc => ⟨(hwall c hc).1, ?_⟩⟩
    exact hcl c (trimRightST_subset l c
      (trimSpace_subset (trimRightST l) c (hwall c hc).2))

/-- The some-output of `processLine` on a line free of dropped code
points is a normalized line. -/
theorem processLine_out (l : Str) (hcl : ∀ c ∈ l, isDropped c = false)
    (m : Str) (h : processLine l = some m) : NormLine m := by
  simp only [processLine] at h
  by_cases hts : trimSpace (trimRightST l) = []
  · rw [if_pos hts] at h
    cases h
  · rw [if_neg hts] at h
    obtain ⟨hfne, hwords⟩ := processLine_words l hcl hts
    by_cases hls : 0 < List.length (trimRightST l)
        - List.length (trimLeftST (trimRightST l))
    · rw [if_pos hls] at h
      injection h with h2
      rw [← h2]
      exact ⟨List.length (trimRightST l) - List.length (trimLeftST (trimRightST l)),
        fields (trimSpace (trimRightST l)), hfne, hwords, rfl⟩
    · rw [if_neg hls] at h
      injection h with h2
      rw [← h2]
      refine ⟨0, fields (trimSpace (trimRightST l)), hfne, hwords, ?_⟩
      simp

end Fileproc

namespace Fileproc

/-- The predicate of an empty line, in `Bool` form for `dropWhile`. -/
def emptyLine (l : Str) : Bool := decide (l = [])

/-- Strip the indentation of the first line (the effect of the outer
left trim on the first kept line). -/
def headStrip : List Str → List Str
  | [] => []
  | m :: rest => trimLeftST m :: rest

/-- The document-level effect of the outer `strings.TrimSpace`: drop
leading empty lines, strip the first kept line's indentation, drop
trailing empty lines. -/
def docTrim (L : List Str) : List Str :=
  ((headStrip (L.dropWhile emptyLine)).reverse.dropWhile emptyLine).reverse

theorem headStrip_mem (K : List Str) (hmem : ∀ l ∈ K, l = [] ∨ NormLine l) :
    ∀ l ∈ headStrip K, l = [] ∨ NormLine l := by
  cases K with
  | nil =>
    intro l hl
    cases hl
  | cons m rest =>
    intro l hl
    rcases List.mem_cons.mp hl with rfl | h2
    · rcases hmem m (List.mem_cons_self _ _) with rfl | hn
      · exact Or.inl rfl
      · obtain ⟨k, ws, hne, hw, rfl⟩ := hn
        right
        refine ⟨0, ws, hne, hw, ?_⟩
        rw [(normLine_trims k ws hne hw).2.2.1]
        simp
    · exact hmem l (List.mem_cons_of_mem _ h2)

theorem dTE_last (K : List Str) :
    ((K.reverse.dropWhile emptyLine).reverse).getLast? ≠ some [] := by
  cases hd : K.reverse.dropWhile emptyLine with
  | nil => simp
  | cons a t =>
    have hpa : emptyLine a = false := dropWhileHeadFalse _ _ a t hd
    have hane : a ≠ [] := by simpa [emptyLine] using hpa
    rw [List.reverse_cons]
    rw [List.getLast?_append]
    · simp
      exact hane

theorem dTE_prefix (K : List Str) :
    ∃ E, K = ((K.reverse.dropWhile emptyLine).reverse) ++ E := by
  refine ⟨(K.reverse.takeWhile emptyLine).reverse, ?_⟩
  have hsplit : List.takeWhile emptyLine K.reverse
      ++ List.dropWhile emptyLine K.reverse = K.reverse :=
    List.takeWhile_append_dropWhile emptyLine K.reverse
  calc K = K.reverse.reverse := (List.reverse_reverse K).symm
    _ = (List.takeWhile emptyLine K.reverse
        ++ List.dropWhile emptyLine K.reverse).reverse := by rw [hsplit]
    _ = (List.dropWhile emptyLine K.reverse).reverse
        ++ (List.takeWhile emptyLine K.reverse).reverse := by
          rw [List.reverse_append]

theorem runsOK_cons_ne (x : Str) (rest : List Str) (k : ℕ) (hx : x ≠ []) :
    runsOK (x :: rest) k = runsOK rest 0 := by
  rw [runsOK, if_neg hx]

theorem runsOK_dropLeading : ∀ (L : List Str), runsOK L 0 = true →
    runsOK (L.dropWhile emptyLine) 0 = true
  | [], _ => rfl
  | [] :: rest, h => by
    rw [List.dropWhile_cons_of_pos (by decide : emptyLine [] = true)]
    rw [runsOK, if_pos rfl, Bool.and_eq_true] at h
    exact runsOK_dropLeading rest (runsOK_mono rest 0 1 (by omega) h.2)
  | (c :: m) :: rest, h => by
    rw [List.dropWhile_cons_of_neg (by simp [emptyLine])]
    exact h

end Fileproc

namespace Fileproc

theorem trimLeft_render : ∀ (L : List Str), (∀ l ∈ L, l = [] ∨ NormLine l) →
    (renderSep '\n' L).dropWhile goIsSpace
      = renderSep '\n' (headStrip (L.dropWhile emptyLine))
  | [], _ => rfl
  | [] :: rest, h => by
    rw [List.dropWhile_cons_of_pos (by decide : emptyLine [] = true)]
    cases rest with
    | nil => rfl
    | cons r1 r2 =>
      rw [renderSep_cons '\n' [] (r1 :: r2) (by simp), List.nil_append,
        List.dropWhile_cons_of_pos (by decide : goIsSpace '\n' = true)]
      exact trimLeft_render (r1 :: r2) (fun x hx => h x (List.mem_cons_of_mem _ hx))
  | (c0 :: m2) :: rest, h => by
    have hnorm : NormLine (c0 :: m2) := by
      rcases h _ (List.mem_cons_self _ _) with h1 | h2
      · exact absurd h1 (by simp)
      · exact h2
    obtain ⟨k, ws, hne, hw, hm⟩ := hnorm
    rw [List.dropWhile_cons_of_neg (by simp [emptyLine])]
    have htl : trimLeftST (c0 :: m2) = joinSp ws := by
      rw [hm]
      exact (normLine_trims k ws hne hw).2.2.1
    obtain ⟨wf, zf, hf, hfm⟩ := joinSp_decomp_first ws hne
    rw [headStrip]
    cases rest with
    | nil =>
      rw [renderSep, renderSep, htl, hm,
        dropWhile_replicate_sp goIsSpace (by decide) k, hf]
      exact dropWhile_head_clean goIsSpace wf zf (hw wf hfm).1
        (fun c2 hc2 => ((hw wf hfm).2 c2 hc2).1)
    | cons r1 r2 =>
      rw [renderSep_cons '\n' _ (r1 :: r2) (by simp),
        renderSep_cons '\n' _ (r1 :: r2) (by simp), htl, hm,
        List.append_assoc, dropWhile_replicate_sp goIsSpace (by decide) k, hf,
        List.append_assoc]
      rw [dropWhile_head_clean goIsSpace wf _ (hw wf hfm).1
        (fun c2 hc2 => ((hw wf hfm).2 c2 hc2).1)]

theorem trimRight_render (K : List Str)
    (hmem : ∀ l ∈ K, l = [] ∨ NormLine l) :
    ((renderSep '\n' K).reverse.dropWhile goIsSpace).reverse
      = renderSep '\n' ((K.reverse.dropWhile emptyLine).reverse) := by
  induction K using List.list_reverse_induction with
  | base => rfl
  | ind K2 a ih =>
    have hmem2 : ∀ l ∈ K2, l = [] ∨ NormLine l :=
      fun l hl => hmem l (List.mem_append.mpr (Or.inl hl))
    by_cases ha : a = []
    · subst ha
      have hR : ((K2 ++ [[]]).reverse.dropWhile emptyLine).reverse
          = ((K2.reverse.dropWhile emptyLine)).reverse := by
        rw [List.reverse_append]
        rw [show ([([] : Str)]).reverse = [([] : Str)] from rfl]
        rw [List.singleton_append,
          List.dropWhile_cons_of_pos (by decide : emptyLine [] = true)]
      rw [hR, ← ih hmem2]
      cases K2 with
      | nil => rfl
      | cons b bs =>
        rw [renderSep_append_singleton '\n' (b :: bs) [] (by simp)]
        rw [show renderSep '\n' (b :: bs) ++ '\n' :: ([] : Str)
            = renderSep '\n' (b :: bs) ++ ['\n'] from rfl]
        rw [List.reverse_append]
        rw [show (['\n'] : Str).reverse = ['\n'] from rfl]
        rw [List.singleton_append,
          List.dropWhile_cons_of_pos (by decide : goIsSpace '\n' = true)]
    · have hanorm : NormLine a := by
        rcases hmem a (List.mem_append.mpr (Or.inr (List.mem_singleton.mpr rfl)))
          with h1 | h2
        · exact absurd h1 ha
        · exact h2
      have hR : ((K2 ++ [a]).reverse.dropWhile emptyLine).reverse = K2 ++ [a] := by
        rw [List.reverse_append, show [a].reverse = [a] from rfl,
          List.singleton_append,
          List.dropWhile_cons_of_neg (by simp [emptyLine, ha]),
          List.reverse_cons, List.reverse_reverse]
      have hla : (K2 ++ [a]).getLast? ≠ some [] := by
        have hsome : (K2 ++ [a]).getLast? = some a := by simp
        rw [hsome]
        intro hcon
        injection hcon with hc2
        exact ha hc2
      obtain ⟨z, w, hzw, hwne, hwcl⟩ :=
        render_decomp_last (K2 ++ [a]) (by simp) hmem hla
      rw [hR, hzw]
      exact trimRight_join goIsSpace z w hwne hwcl

end Fileproc

namespace Fileproc

theorem trim_render (L : List Str) (hmem : ∀ l ∈ L, l = [] ∨ NormLine l) :
    trimSpace (renderSep '\n' L) = renderSep '\n' (docTrim L) := by
  rw [trimSpace, trimLeft_render L hmem]
  exact trimRight_render (headStrip (L.dropWhile emptyLine))
    (headStrip_mem _ (fun l hl => hmem l ((List.dropWhile_sublist _).subset hl)))

theorem docTrim_mem (L : List Str) (hmem : ∀ l ∈ L, l = [] ∨ NormLine l) :
    ∀ l ∈ docTrim L, l = [] ∨ NormLine l := by
  intro l hl
  rw [docTrim, List.mem_reverse] at hl
  have h2 := (List.dropWhile_sublist _).subset hl
  rw [List.mem_reverse] at h2
  exact headStrip_mem _
    (fun y hy => hmem y ((List.dropWhile_sublist _).subset hy)) l h2

theorem dTE_cons_ne (x : Str) (rest : List Str) (hx : emptyLine x = false) :
    ∃ r2, ((x :: rest).reverse.dropWhile emptyLine).reverse = x :: r2 := by
  rw [List.reverse_cons, List.dropWhile_append]
  split_ifs with hemp
  · rw [List.dropWhile_cons_of_neg (by simp [hx])]
    exact ⟨[], by simp⟩
  · refine ⟨(List.dropWhile emptyLine rest.reverse).reverse, ?_⟩
    rw [List.reverse_append, show ([x] : List Str).reverse = [x] from rfl,
      List.singleton_append]

theorem docTrim_head (L : List Str) (hmem : ∀ l ∈ L, l = [] ∨ NormLine l) :
    ∀ m rest, docTrim L = m :: rest → NormLine0 m := by
  intro m rest heq
  rw [docTrim] at heq
  cases hA : L.dropWhile emptyLine with
  | nil =>
    rw [hA] at heq
    exact absurd heq (by simp [headStrip])
  | cons m0 r0 =>
    rw [hA] at heq
    have hm0e : emptyLine m0 = false := dropWhileHeadFalse _ _ _ _ hA
    have hm0ne : m0 ≠ [] := by simpa [emptyLine] using hm0e
    have hm0mem : m0 ∈ L.dropWhile emptyLine := by
      rw [hA]
      exact List.mem_cons_self _ _
    have hm0n : NormLine m0 := by
      rcases hmem m0 ((List.dropWhile_sublist _).subset hm0mem) with h1 | h2
      · exact absurd h1 hm0ne
      · exact h2
    obtain ⟨k, ws, hne, hw, hm0⟩ := hm0n
    have htl : trimLeftST m0 = joinSp ws := by
      rw [hm0]
      exact (normLine_trims k ws hne hw).2.2.1
    have htlne : emptyLine (trimLeftST m0) = false := by
      rw [htl]
      have hj := (normLine_trims k ws hne hw).2.2.2
      simpa [emptyLine] using hj
    rw [headStrip] at heq
    obtain ⟨r2, hr2⟩ := dTE_cons_ne (trimLeftST m0) r0 htlne
    rw [hr2, List.cons.injEq] at heq
    rw [← heq.1, htl]
    exact ⟨ws, hne, hw, rfl⟩

theorem docTrim_runsOK (L : List Str) (hmem : ∀ l ∈ L, l = [] ∨ NormLine l)
    (h : runsOK L 0 = true) : runsOK (docTrim L) 0 = true := by
  have h1 : runsOK (L.dropWhile emptyLine) 0 = true := runsOK_dropLeading L h
  have h2 : runsOK (headStrip (L.dropWhile emptyLine)) 0 = true := by
    cases hA : L.dropWhile emptyLine with
    | nil => rfl
    | cons m0 r0 =>
      rw [hA] at h1
      have hm0e : emptyLine m0 = false := dropWhileHeadFalse _ _ _ _ hA
      have hm0ne : m0 ≠ [] := by simpa [emptyLine] using hm0e
      have hm0mem : m0 ∈ L.dropWhile emptyLine := by
        rw [hA]
        exact List.mem_cons_self _ _
      have hm0n : NormLine m0 := by
        rcases hmem m0 ((List.dropWhile_sublist _).subset hm0mem) with hx1 | hx2
        · exact absurd hx1 hm0ne
        · exact hx2
      obtain ⟨k, ws, hne, hw, hm0⟩ := hm0n
      have htlne : trimLeftST m0 ≠ [] := by
        rw [hm0, (normLine_trims k ws hne hw).2.2.1]
        exact (normLine_trims k ws hne hw).2.2.2
      rw [headStrip, runsOK_cons_ne _ _ _ htlne]
      rw [runsOK_cons_ne _ _ _ hm0ne] at h1
      exact h1
  obtain ⟨E, hE⟩ := dTE_prefix (headStrip (L.dropWhile emptyLine))
  rw [docTrim]
  rw [hE] at h2
  exact runsOK_append_left _ E 0 h2

/-- Every output of `cleanText` is a rendered normal-form document. -/
theorem cleanText_norm (x : Str) :
    ∃ M, (∀ m ∈ M, m = [] ∨ NormLine m) ∧ runsOK M 0 = true ∧
      (∀ m rest, M = m :: rest → NormLine0 m) ∧ M.getLast? ≠ some [] ∧
      cleanText x = renderSep '\n' M := by
  have hclean : ∀ c ∈ dropInvis (replCR (replCRLF x)), isDropped c = false :=
    dropInvis_clean _
  have hlines : ∀ line ∈ (dropInvis (replCR (replCRLF x))).splitOn '\n',
      ∀ c ∈ line, isDropped c = false := by
    intro line hline c hc
    exact hclean c (splitOnP_mem_subset _ line hline c hc).1
  have hLmem : ∀ l ∈ capLines
      (((dropInvis (replCR (replCRLF x))).splitOn '\n').map processLine) 0,
      l = [] ∨ NormLine l := by
    intro l hl
    rcases capLines_mem _ 0 l hl with h1 | h2
    · exact Or.inl h1
    · obtain ⟨line, hlm, hpl⟩ := List.mem_map.mp h2
      exact Or.inr (processLine_out line (hlines line hlm) l hpl)
  have hLruns : runsOK (capLines
      (((dropInvis (replCR (replCRLF x))).splitOn '\n').map processLine) 0) 0
      = true := by
    apply capLines_runsOK
    intro l hl
    obtain ⟨line, hlm, hpl⟩ := List.mem_map.mp hl
    exact normLine_ne_nil l (processLine_out line (hlines line hlm) l hpl)
  refine ⟨docTrim (capLines
      (((dropInvis (replCR (replCRLF x))).splitOn '\n').map processLine) 0),
    docTrim_mem _ hLmem, docTrim_runsOK _ hLmem hLruns,
    docTrim_head _ hLmem, ?_, ?_⟩
  · rw [docTrim]
    exact dTE_last _
  · simp only [cleanText]
    rw [← renderSep_eq_intercalate]
    exact trim_render _ hLmem

/-- C9: the hybrid engine's text cleaning is idempotent: cleaning an
already-cleaned text changes nothing — every output of `cleanText` is a
normal-form document that every pipeline stage fixes. -/
theorem c9_cleanText_idempotent (x : Str) :
    cleanText (cleanText x) = cleanText x := by
  obtain ⟨M, hmem, hruns, h0, hlast, hy⟩ := cleanText_norm x
  rw [hy]
  exact cleanText_fixed M hmem hruns h0 hlast

end Fileproc
